import Mathlib

/-!
Shallow embedding of `src/ArrayInclude.ts` (real-array-include): a deep
structural-inclusion matcher with an object matcher and an array matcher in
mutual recursion, symbolic-placeholder resolution, and a check/assert mode
boundary.

Modelling conventions:
* JS values are the inductive `JVal`.  Numbers are modelled as `Int`
  (the claims under study do not involve float-specific behaviour), symbols
  and functions are modelled by numeric identities (JS compares both by
  reference identity).
* `typeof` is the function `jTypeOf` into the enumeration `JType` of the
  strings `typeof` can produce.
* Thrown JS exceptions are `Except Err`; local mutable state
  (`ctx.symbols` descriptor values, which are shared by reference through
  `{ ...ctx, mode: 'assert' }` spreads) is threaded explicitly, and is also
  returned alongside a thrown error because JS mutations survive a throw.
* User-supplied matcher functions receive `(actual, ctx)` in JS; they are
  modelled as pure predicates on the value argument.
* `for (const k in arr)` enumerates the canonical index strings of an
  array's entries; `skipActuals` only ever holds such keys, so the
  enumeration keys are modelled by their numeric positions (a bijection).
-/

/-- The strings the JS `typeof` operator can produce in this code base. -/
inductive JType
  | undefined
  | object
  | boolean
  | number
  | string
  | symbol
  | function
deriving DecidableEq

/-- Render a `JType` the way JS `typeof` spells it (used in messages). -/
def JType.name : JType → String
  | .undefined => "undefined"
  | .object => "object"
  | .boolean => "boolean"
  | .number => "number"
  | .string => "string"
  | .symbol => "symbol"
  | .function => "function"

/-- An object property key: an ordinary string key or a symbol key. -/
inductive JKey
  | str (s : String)
  | sym (sid : Nat)
deriving DecidableEq

/-- JS values as used by the matcher.  Objects are insertion-ordered field
lists (JS guarantees distinct own keys); arrays are element lists. -/
inductive JVal
  | undef
  | null
  | bool (b : Bool)
  | num (n : Int)
  | str (s : String)
  | sym (sid : Nat)
  | func (fid : Nat)
  | obj (fields : List (JKey × JVal))
  | arr (elems : List JVal)

/-- JS `typeof`. -/
def jTypeOf : JVal → JType
  | .undef => .undefined
  | .null => .object
  | .bool _ => .boolean
  | .num _ => .number
  | .str _ => .string
  | .sym _ => .symbol
  | .func _ => .function
  | .obj _ => .object
  | .arr _ => .object

/-- JS strict equality `===` restricted to the shapes this code compares.
Two composite values are compared by reference in JS; the model does not
track reference identity and treats any composite comparison as false
(`===` is only reached for non-composites in the matcher). -/
def strictEq : JVal → JVal → Bool
  | .undef, .undef => true
  | .null, .null => true
  | .bool a, .bool b => a == b
  | .num a, .num b => a == b
  | .str a, .str b => a == b
  | .sym a, .sym b => a == b
  | .func a, .func b => a == b
  | _, _ => false

/-- `Array.isArray`. -/
def isArray : JVal → Bool
  | .arr _ => true
  | _ => false

/-- The element list of an array value (used right after `Array.isArray`). -/
def arrElems : JVal → List JVal
  | .arr as => as
  | _ => []

/-- A thrown JS exception: `new Error(msg)` (also used by the fallback
assertion functions) or an engine `TypeError`. -/
inductive Err
  | jsError (msg : String)
  | typeError (msg : String)

/-- Display a value inside a template-literal message (`String(v)`).  Only
the message text depends on this; no control flow does. -/
def jDisplay : JVal → String
  | .undef => "undefined"
  | .null => "null"
  | .bool b => if b then "true" else "false"
  | .num n => toString n
  | .str s => s
  | .sym sid => "Symbol(" ++ Nat.repr sid ++ ")"
  | .func _ => "function"
  | .obj _ => "[object Object]"
  | .arr _ => "[object Array]"

/-- Render a key the way `expectedKey.toString()` does in path strings. -/
def JKey.render : JKey → String
  | .str s => s
  | .sym sid => "Symbol(" ++ Nat.repr sid ++ ")"

/-- The key as a JS value (`expectedKey as any`, `matchedKeys.add`). -/
def JKey.toVal : JKey → JVal
  | .str s => JVal.str s
  | .sym sid => JVal.sym sid

/-- JS `ToPropertyKey` coercion of an arbitrary value used in `actual[k]`:
strings and symbols index directly, anything else through `String(v)`. -/
def toPropKey : JVal → JKey
  | .str s => JKey.str s
  | .sym sid => JKey.sym sid
  | v => JKey.str (jDisplay v)

/-- First field of an object whose key equals `k` (JS own keys are
distinct, so first-match lookup is exact). -/
def fieldLookup (k : JKey) : List (JKey × JVal) → Option JVal
  | [] => none
  | (k', v) :: rest => if k' = k then some v else fieldLookup k rest

/-- `Object.keys(v)`: own enumerable string keys; throws a `TypeError` on
`null`; index strings for arrays.  (Primitives are never passed here: the
matcher guards on `typeof v === 'object'` first.) -/
def objStringKeysE : JVal → Except Err (List String)
  | .null => .error (.typeError "Cannot convert undefined or null to object")
  | .obj fs => .ok ((fs.filterMap (fun p => match p.1 with
      | JKey.str s => some s
      | JKey.sym _ => none)))
  | .arr as => .ok ((List.range as.length).map Nat.repr)
  | _ => .ok []

/-- `actual[k]`: property read with `ToPropertyKey` coercion.  Throws a
`TypeError` on `null`/`undefined` bases; a missing property is `undefined`.
Array bases answer canonical index strings and `length`. -/
def getPropE (base : JVal) (key : JVal) : Except Err JVal :=
  match base with
  | .null => .error (.typeError "Cannot read properties of null")
  | .undef => .error (.typeError "Cannot read properties of undefined")
  | .obj fs => .ok ((fieldLookup (toPropKey key) fs).getD JVal.undef)
  | .arr as =>
      match toPropKey key with
      | JKey.sym _ => .ok JVal.undef
      | JKey.str s =>
          if s = "length" then .ok (JVal.num as.length)
          else match s.toNat? with
            | some n => if Nat.repr n = s then .ok ((as[n]?).getD JVal.undef)
                        else .ok JVal.undef
            | none => .ok JVal.undef
  | .str s => .ok ((s.toList.map (fun ch => JVal.str (String.singleton ch))
      |>.get? ((jDisplay key).toNat?.getD (s.length))).getD JVal.undef)
  | _ => .ok JVal.undef

/-- `for (const k in v)` enumerates own enumerable keys; values listed in
enumeration order.  The keys themselves are modelled by positions (arrays
yield the canonical index strings, in bijection with positions). -/
def forInValues : JVal → List JVal
  | .arr as => as
  | .obj fs => fs.map Prod.snd
  | .str s => s.toList.map (fun ch => JVal.str (String.singleton ch))
  | _ => []

/-- Function-interpretation mode of the context. -/
inductive Funcmode
  | value
  | matcher
deriving DecidableEq

/-- Operation mode of the context. -/
inductive Mode
  | check
  | assert
deriving DecidableEq

/-- A normalized symbol descriptor (`ctx.symbols[sym]` after
`initContextDefaults`): resolver predicate and mutable resolved value. -/
structure SymDescr where
  matcher : JVal → Bool
  value : JVal

/-- The per-call symbol table, keyed by symbol identity.  Mutable in JS
(shared by reference through context spreads); threaded explicitly here. -/
abbrev Symbols := List (Nat × SymDescr)

/-- Descriptor lookup (`sym in ctx.symbols` / `ctx.symbols[sym]`). -/
def symsFind (sid : Nat) : Symbols → Option SymDescr
  | [] => none
  | (k, d) :: rest => if k = sid then some d else symsFind sid rest

/-- `symval.value = v`: overwrite the resolved value of descriptor `sid`. -/
def symsSetValue (sid : Nat) (v : JVal) : Symbols → Symbols
  | [] => []
  | (k, d) :: rest =>
      if k = sid then (k, { d with value := v }) :: rest
      else (k, d) :: symsSetValue sid v rest

/-- The immutable part of an initialized context: function-interpretation
mode, the semantics of expected matcher functions (JS calls the function
value itself; the model interprets `JVal.func fid` through `funcs`), and
the injected assertion primitives.  `fail` and `equal` return
`some err` when the JS function would throw and `none` when it returns;
`none` at the outer `Option` models a missing (`undefined`) entry, a call
of which throws a `TypeError`.  The operation mode is passed separately
because `{ ...ctx, mode: 'assert' }` is the only context field the matcher
ever changes. -/
structure Ctx where
  funcmode : Funcmode
  funcs : Nat → JVal → Bool
  fail : Option (String → Option Err)
  equal : Option (JVal → JVal → String → Option Err)

/-- Invoke `ctx.assertionFuncs.fail(msg)`. -/
def callFail (c : Ctx) (msg : String) : Except Err Unit :=
  match c.fail with
  | none => .error (.typeError "ctx.assertionFuncs.fail is not a function")
  | some f => match f msg with
    | some e => .error e
    | none => .ok Unit.unit

/-- Invoke `ctx.assertionFuncs.equal(a, e, msg)`. -/
def callEqual (c : Ctx) (a e : JVal) (msg : String) : Except Err Unit :=
  match c.equal with
  | none => .error (.typeError "ctx.assertionFuncs.equal is not a function")
  | some f => match f a e msg with
    | some err => .error err
    | none => .ok Unit.unit

/-- The fallback `fail` installed when chai is unavailable: always throws. -/
def fallbackFail (m : String) : Option Err :=
  some (.jsError ("Assertion Failed: " ++ m))

/-- The fallback `equal`: passes only on same-`typeof` strictly-equal
values, otherwise throws. -/
def fallbackEqual (e a : JVal) (m : String) : Option Err :=
  if jTypeOf e = jTypeOf a && strictEq e a then none
  else some (.jsError ("Equality Assertion Failed: " ++ m))

/-- `assertProperty(obj, property, message, ctx)`: internal error on a
non-object base, then `if (Object.keys(obj).find(n => n === property))`:
the found KEY STRING itself is tested for JS truthiness, so a found
empty-string key `""` is falsy and still delegates to `fail` (as does no
find at all, which yields `undefined`). -/
def assertProperty (obj : JVal) (property : JVal) (message : String)
    (c : Ctx) : Except Err Unit :=
  if jTypeOf obj ≠ JType.object then
    .error (.jsError ("Internal Error: Expected object for property assertion but got "
      ++ (jTypeOf obj).name))
  else match objStringKeysE obj with
    | .error e => .error e
    | .ok ks =>
        match ks.find? (fun n => strictEq (JVal.str n) property) with
        | some found =>
            if found = "" then
              callFail c ("Property Assertion Failed: Could not find property "
                ++ jDisplay property ++ ": " ++ message)
            else .ok Unit.unit
        | none =>
            callFail c ("Property Assertion Failed: Could not find property "
              ++ jDisplay property ++ ": " ++ message)

/-- `assertTrue(expectation, message, ctx)`. -/
def assertTrue (expectation : Bool) (message : String) (c : Ctx) :
    Except Err Unit :=
  if expectation ≠ true then callFail c ("Truth Assertion Failed: " ++ message)
  else .ok Unit.unit

/-- The symbolic-placeholder branch of the array scan (lines 268-285):
resolve-or-check against the current actual element `x`, then mark the
index consumed and stop scanning (even when a non-throwing `equal` or
`fail` rejected). -/
def scanSymbolStep (e x : JVal) (epath : String) (c : Ctx) (j : Nat)
    (skip : List Nat) (syms : Symbols) :
    Except Err (Bool × List Nat) × Symbols :=
  match e with
  | JVal.sym sid =>
    match symsFind sid syms with
    | none => (.error (.typeError "unreachable: guard checked membership"), syms)
    | some symval =>
      if ¬ symval.matcher symval.value then
        if symval.matcher x then
          (.ok (true, j :: skip), symsSetValue sid x syms)
        else
          match callFail c ("Property did not pass symbol " ++ jDisplay e
              ++ " matcher " ++ epath) with
          | .error err => (.error err, syms)
          | .ok _ => (.ok (true, j :: skip), syms)
      else
        match callEqual c x symval.value ("Property symbol " ++ epath
            ++ " did not match expected value " ++ jDisplay symval.value) with
        | .error err => (.error err, syms)
        | .ok _ => (.ok (true, j :: skip), syms)
  | _ => (.error (.typeError "unreachable: symbol guard"), syms)

/-- Entry list the object matcher iterates for an array-valued `expected`
(`Object.keys` yields the index strings, with the element values). -/
def arrayEntries (i : Nat) : List JVal → List (JKey × JVal)
  | [] => []
  | v :: rest => (JKey.str (Nat.repr i), v) :: arrayEntries (i + 1) rest

/-- Whether an object entry has a string key. -/
def isStrEntry (p : JKey × JVal) : Bool :=
  match p.1 with
  | JKey.str _ => true
  | JKey.sym _ => false

/-- `[...Object.keys(expected), ...Object.getOwnPropertySymbols(expected)]`
paired with the corresponding values: string-keyed entries first, then
symbol-keyed entries, each in insertion order.  Throws on `null`. -/
def objEntriesE : JVal → Except Err (List (JKey × JVal))
  | .null => .error (.typeError "Cannot convert undefined or null to object")
  | .obj fs => .ok (fs.filter isStrEntry ++ fs.filter (fun p => ! isStrEntry p))
  | .arr as => .ok (arrayEntries 0 as)
  | _ => .ok []

/-- Key resolution for one expected entry of the object matcher
(lines 186-206): symbolic placeholder keys follow the resolve-or-check
protocol, ordinary keys require the property.  Returns `actualKey`. -/
def resolveKey (actual : JVal) (ek : JKey) (propPath : String) (c : Ctx)
    (matched : List JVal) (syms : Symbols) : Except Err JVal × Symbols :=
  match ek with
  | JKey.sym sid =>
    match symsFind sid syms with
    | some symval =>
        if ¬ symval.matcher symval.value then
          match objStringKeysE actual with
          | .error e => (.error e, syms)
          | .ok ks =>
              let foundkey := ks.find? (fun v =>
                ¬ (matched.any (fun w => strictEq w (JVal.str v)))
                && symval.matcher (JVal.str v))
              let fkval := match foundkey with
                | some s => JVal.str s
                | none => JVal.undef
              if symval.matcher fkval then
                (.ok fkval, symsSetValue sid fkval syms)
              else
                match callFail c ("Could not resolve property " ++ propPath) with
                | .error e => (.error e, syms)
                | .ok _ => (.ok symval.value, syms)
        else
          match assertProperty actual symval.value
              ("Expected resolved symbol " ++ propPath
                ++ " as key (resolved to value " ++ jDisplay symval.value ++ ")")
              c with
          | .error e => (.error e, syms)
          | .ok _ => (.ok symval.value, syms)
    | none =>
        match assertProperty actual ek.toVal ("Expected property " ++ propPath) c with
        | .error e => (.error e, syms)
        | .ok _ => (.ok ek.toVal, syms)
  | JKey.str _ =>
      match assertProperty actual ek.toVal ("Expected property " ++ propPath) c with
      | .error e => (.error e, syms)
      | .ok _ => (.ok ek.toVal, syms)

mutual

/-- `_assertRealInclude(actual, expected, path, ctx)`: runs the object
matcher body under the try; on a thrown failure, `assert` mode re-raises
and `check` mode returns `false`. -/
def _assertRealInclude (actual expected : JVal) (path : String) (c : Ctx)
    (m : Mode) (syms : Symbols) : Except Err Bool × Symbols :=
  match inclBody actual expected path c syms with
  | (.ok _, s') => (.ok true, s')
  | (.error e, s') => if m = Mode.assert then (.error e, s') else (.ok false, s')
termination_by (sizeOf expected, 9, 0)

/-- The try-block body of `_assertRealInclude` (lines 176-235): scalar
short-circuits through `equal`, otherwise the per-expected-key loop. -/
def inclBody (actual expected : JVal) (path : String) (c : Ctx)
    (syms : Symbols) : Except Err Unit × Symbols :=
  if jTypeOf actual ≠ JType.object then
    (callEqual c actual expected ("Property does not match expected value: " ++ path), syms)
  else if jTypeOf expected ≠ JType.object then
    (callEqual c actual expected ("Property does not match expected value: " ++ path), syms)
  else
    match h : objEntriesE expected with
    | .error e => (.error e, syms)
    | .ok ents => objKeyLoop actual ents path c [] syms
termination_by (sizeOf expected, 8, 0)
decreasing_by
  rename_i hA hE
  simp_wf
  refine Prod.Lex.left _ _ ?_
  have hty : jTypeOf expected = JType.object := not_not.mp hE
  cases expected with
  | null => simp [objEntriesE] at h
  | obj fs =>
      have hperm : (fs.filter isStrEntry ++ fs.filter (fun p => ! isStrEntry p)).Perm fs :=
        List.filter_append_perm isStrEntry fs
      have hents : ents = fs.filter isStrEntry ++ fs.filter (fun p => ! isStrEntry p) := by
        simpa [objEntriesE] using h.symm
      have hall : ∀ l : List (JKey × JVal), sizeOf (l.map Prod.snd) ≤ sizeOf l := by
        intro l
        induction l with
        | nil => simp
        | cons p rest ih =>
            cases p with
            | mk k v =>
                simp only [List.map_cons, List.cons.sizeOf_spec, Prod.mk.sizeOf_spec]
                omega
      have h1 : sizeOf (ents.map Prod.snd) ≤ sizeOf ents := hall ents
      have h2 : sizeOf ents = sizeOf fs := by
        rw [hents]; exact hperm.sizeOf_eq_sizeOf
      have h3 : sizeOf (JVal.obj fs) = 1 + sizeOf fs := by simp
      omega
  | arr as =>
      have hents : ents = arrayEntries 0 as := by
        simpa [objEntriesE] using h.symm
      have h1 : ents.map Prod.snd = as := by
        rw [hents]
        clear hents
        have : ∀ (i : Nat) (l : List JVal), (arrayEntries i l).map Prod.snd = l := by
          intro i l
          induction l generalizing i with
          | nil => rfl
          | cons v rest ih => simp [arrayEntries, ih]
        exact this 0 as
      have h3 : sizeOf (JVal.arr as) = 1 + sizeOf as := by simp
      rw [h1]; omega
  | undef => simp [jTypeOf] at hty
  | bool b => simp [jTypeOf] at hty
  | num n => simp [jTypeOf] at hty
  | str s => simp [jTypeOf] at hty
  | sym sid => simp [jTypeOf] at hty
  | func fid => simp [jTypeOf] at hty

/-- The per-expected-entry loop of the object matcher (lines 185-235):
key resolution, value dispatch, matched-key bookkeeping. -/
def objKeyLoop (actual : JVal) (ents : List (JKey × JVal))
    (path : String) (c : Ctx) (matched : List JVal) (syms : Symbols) :
    Except Err Unit × Symbols :=
  match ents with
  | [] => (.ok Unit.unit, syms)
  | (ek, ev) :: rest =>
    let propPath := path ++ "." ++ ek.render
    match resolveKey actual ek propPath c matched syms with
    | (.error e, s₁) => (.error e, s₁)
    | (.ok actualKey, s₁) =>
      let afterDispatch : Except Err Unit × Symbols :=
        if jTypeOf ev = JType.object then
          match getPropE actual actualKey with
          | .error e => (.error e, s₁)
          | .ok av =>
            if isArray ev then
                match _assertRealArrayInclude av (arrElems ev) propPath c Mode.assert s₁ with
                | (.ok _, s₂) => (.ok Unit.unit, s₂)
                | (.error e, s₂) => (.error e, s₂)
            else
                match _assertRealInclude av ev propPath c Mode.assert s₁ with
                | (.ok _, s₂) => (.ok Unit.unit, s₂)
                | (.error e, s₂) => (.error e, s₂)
        else if jTypeOf ev == JType.function && c.funcmode == Funcmode.matcher then
          match getPropE actual actualKey with
          | .error e => (.error e, s₁)
          | .ok av =>
            (assertTrue (match ev with | JVal.func fid => c.funcs fid av | _ => false)
              ("Matcher function did not match expected value " ++ jDisplay ev
                ++ " at " ++ path) c, s₁)
        else if jTypeOf ev == JType.symbol &&
            (match ev with | JVal.sym sid => (symsFind sid s₁).isSome | _ => false) then
          -- BUG IN SOURCE (line 218): the descriptor is read at
          -- `ctx.symbols[expectedKey]`, not `ctx.symbols[expectedVal]`.
          match (match ek with | JKey.sym ksid => symsFind ksid s₁ | JKey.str _ => none) with
          | none => (.error (.typeError "Cannot read properties of undefined (reading matcher)"), s₁)
          | some symval =>
            match getPropE actual actualKey with
            | .error e => (.error e, s₁)
            | .ok av =>
              if ¬ symval.matcher symval.value then
                if symval.matcher av then
                  (.ok Unit.unit,
                    match ek with
                    | JKey.sym ksid => symsSetValue ksid av s₁
                    | JKey.str _ => s₁)
                else
                  (callFail c ("Property did not pass symbol " ++ jDisplay ev
                    ++ " matcher " ++ propPath), s₁)
              else
                (callEqual c av symval.value ("Property symbol " ++ propPath
                  ++ " did not match expected value " ++ jDisplay symval.value), s₁)
        else
          match getPropE actual actualKey with
          | .error e => (.error e, s₁)
          | .ok av =>
            (callEqual c av ev ("Property does not match expected value: " ++ propPath), s₁)
      match afterDispatch with
      | (.error e, s₂) => (.error e, s₂)
      | (.ok _, s₂) =>
          objKeyLoop actual rest path c (matched ++ [actualKey]) s₂
termination_by (sizeOf (ents.map Prod.snd), 7, 0)
decreasing_by
  all_goals simp_wf
  all_goals refine Prod.Lex.left _ _ ?_
  all_goals try simp only [List.map_cons, List.cons.sizeOf_spec]
  all_goals first
    | omega
    | (have hAE : ∀ v : JVal, sizeOf (arrElems v) ≤ sizeOf v := by
         intro v; cases v <;> simp [arrElems]
       exact lt_of_le_of_lt (hAE _) (by omega))

/-- `_assertRealArrayInclude(actual, expected, path, ctx)`: array-matcher
loop under the try, with the same mode boundary as the object matcher. -/
def _assertRealArrayInclude (actual : JVal) (expected : List JVal)
    (path : String) (c : Ctx) (m : Mode) (syms : Symbols) :
    Except Err Bool × Symbols :=
  match arrLoop actual 0 expected path c m [] syms with
  | (.ok _, s') => (.ok true, s')
  | (.error e, s') => if m = Mode.assert then (.error e, s') else (.ok false, s')
termination_by (sizeOf expected, 9, 0)

/-- The per-expected-element loop (lines 250-316): scan for a match; when
none is found, delegate to `fail` (continuing only if it returns). -/
def arrLoop (actual : JVal) (i : Nat) (es : List JVal) (path : String)
    (c : Ctx) (m : Mode) (skip : List Nat) (syms : Symbols) :
    Except Err Unit × Symbols :=
  match es with
  | [] => (.ok Unit.unit, syms)
  | e :: rest =>
    let epath := path ++ "." ++ Nat.repr i
    match arrScan e epath 0 (forInValues actual) c m skip syms with
    | (.error err, s') => (.error err, s')
    | (.ok (found, skip'), s') =>
      if found then arrLoop actual (i + 1) rest path c m skip' s'
      else
        match callFail c ("Could not find array member value at path: " ++ epath) with
        | .error err => (.error err, s')
        | .ok _ => arrLoop actual (i + 1) rest path c m skip' s'
termination_by (sizeOf es, 8, 0)

/-- The greedy scan over unconsumed actual entries for one expected
element (lines 255-311).  Composite probes run in the CALLER'S mode
(the source does not force 'assert' here); a probe attempt marks the
entry consumed only when the probe returns rather than throws. -/
def arrScan (e : JVal) (epath : String) (j : Nat) (xs : List JVal) (c : Ctx)
    (m : Mode) (skip : List Nat) (syms : Symbols) :
    Except Err (Bool × List Nat) × Symbols :=
  match xs with
  | [] => (.ok (false, skip), syms)
  | x :: rest =>
    if skip.contains j then arrScan e epath (j + 1) rest c m skip syms
    else if jTypeOf e == JType.function && c.funcmode == Funcmode.matcher &&
        (match e with | JVal.func fid => c.funcs fid x | _ => false) then
      (.ok (true, j :: skip), syms)
    else if jTypeOf e == JType.symbol &&
        (match e with | JVal.sym sid => (symsFind sid syms).isSome | _ => false) then
      scanSymbolStep e x epath c j skip syms
    else if jTypeOf x ≠ jTypeOf e then
      arrScan e epath (j + 1) rest c m skip syms
    else if jTypeOf e = JType.object then
      match (if isArray e then _assertRealArrayInclude x (arrElems e) epath c m syms
             else _assertRealInclude x e epath c m syms) with
      | (.ok found, s') =>
          if found then (.ok (true, j :: skip), s')
          else arrScan e epath (j + 1) rest c m (j :: skip) s'
      | (.error _, s') => arrScan e epath (j + 1) rest c m skip s'
    else if strictEq e x then
      (.ok (true, j :: skip), syms)
    else
      arrScan e epath (j + 1) rest c m skip syms
termination_by (sizeOf e, 9, sizeOf xs)
decreasing_by
  all_goals simp_wf
  all_goals first
    | (refine Prod.Lex.right _ (Prod.Lex.right _ ?_)
       simp only [List.cons.sizeOf_spec]
       omega)
    | (refine Prod.Lex.right _ (Prod.Lex.right _ ?_)
       omega)
    | (rename_i hArr
       refine Prod.Lex.left _ _ ?_
       cases e <;> simp [isArray] at hArr <;> simp [arrElems] <;> omega)

end

/-- A user-injectable assertion function object.  One JS function value can
be stored under either slot of `assertionFuncs`; the two fields give its
behaviour under each calling convention (`some err` models a throw). -/
structure JsFunc where
  callFail : String → Option Err
  callEqual : JVal → JVal → String → Option Err

/-- The module-level mutable state: `defaultMode` and
`defaultAssertionFuncs`. -/
structure GlobalState where
  defaultMode : Mode
  funcs : List (String × JsFunc)

/-- The state at module load: `defaultMode = 'check'`,
`defaultAssertionFuncs = {}`. -/
def initialGlobalState : GlobalState :=
  { defaultMode := Mode.check, funcs := [] }

/-- Association-list read of `defaultAssertionFuncs[key]`. -/
def funcsFind (key : String) : List (String × JsFunc) → Option JsFunc
  | [] => none
  | (k, f) :: rest => if k = key then some f else funcsFind key rest

/-- `defaultAssertionFuncs[key] = f`. -/
def funcsSet (key : String) (f : JsFunc) : List (String × JsFunc) → List (String × JsFunc)
  | [] => [(key, f)]
  | (k, g) :: rest =>
      if k = key then (k, f) :: rest else (k, g) :: funcsSet key f rest

/-- The fallback `fail` function as a stored function object (its behaviour
under the `equal` convention is irrelevant to the matcher and modelled by
its JS code applied to a first argument coerced to the message slot). -/
def fallbackFailFunc : JsFunc :=
  { callFail := fallbackFail,
    callEqual := fun a _ _ => fallbackFail (jDisplay a) }

/-- The fallback `equal` function as a stored function object. -/
def fallbackEqualFunc : JsFunc :=
  { callFail := fun m => fallbackEqual (JVal.str m) JVal.undef "undefined",
    callEqual := fallbackEqual }

/-- `loadDefaultAssertionFuncs()`: if both `fail` and `equal` are present,
do nothing; otherwise install the built-in fallbacks (the chai integration
branch depends on the host environment and is out of scope; the spec
describes the fallback, which the catch branch installs unconditionally). -/
def loadDefaultAssertionFuncs (g : GlobalState) : GlobalState :=
  if (funcsFind "fail" g.funcs).isSome && (funcsFind "equal" g.funcs).isSome then g
  else
    let withFail := funcsSet "fail" fallbackFailFunc g.funcs
    { g with funcs := funcsSet "equal" fallbackEqualFunc withFail }

/-- `setDefaultMode(mode, assertionFuncs?)`: validates and installs the
default mode, then installs each supplied assertion function, throwing on
any entry that is not callable (`none` models a non-callable value). -/
def setDefaultMode (mode : String) (afs : Option (List (String × Option JsFunc)))
    (g : GlobalState) : Except Err GlobalState :=
  if mode = "check" ∨ mode = "assert" then
    let g1 : GlobalState :=
      { g with defaultMode := if mode = "check" then Mode.check else Mode.assert }
    match afs with
    | none => .ok g1
    | some entries => setFuncsLoop entries g1
  else
    .error (.jsError ("Mode must be check or assert, not: " ++ mode))
where
  /-- The `for (const key of Object.keys(assertionFuncs))` loop. -/
  setFuncsLoop : List (String × Option JsFunc) → GlobalState → Except Err GlobalState
    | [], g' => .ok g'
    | (key, some f) :: rest, g' =>
        setFuncsLoop rest { g' with funcs := funcsSet key f g'.funcs }
    | (key, none) :: _, _ =>
        .error (.jsError ("Assertion func for type " ++ key ++ " must be a function"))

/-- A caller-supplied symbol descriptor before normalization:
`{ matcher?, value? }`.  `none` models an absent property. -/
structure SymDescrInput where
  matcher : Option (JVal → Bool)
  value : Option JVal

/-- The default resolver predicate `(a) => typeof a !== 'undefined'`. -/
def defaultSymMatcher (a : JVal) : Bool :=
  jTypeOf a != JType.undefined

/-- A caller-supplied partial context, before `initContextDefaults`.
`none` models an absent option. -/
structure CtxInput where
  path : Option String
  funcmode : Option Funcmode
  mode : Option Mode
  symbols : List (Nat × SymDescrInput)
  funcs : Nat → JVal → Bool
  failF : Option (String → Option Err)
  equalF : Option (JVal → JVal → String → Option Err)

/-- A caller context with every option absent and no symbols. -/
def emptyCtxInput : CtxInput :=
  { path := none, funcmode := none, mode := none, symbols := [],
    funcs := fun _ _ => false, failF := none, equalF := none }

/-- Normalize one symbol descriptor:
`{ matcher: default, value: undefined, ...ctx.symbols[sym] }`. -/
def normalizeSymDescr (inp : SymDescrInput) : SymDescr :=
  { matcher := inp.matcher.getD defaultSymMatcher,
    value := inp.value.getD JVal.undef }

/-- `initContextDefaults(ctx)`: lazily loads the default assertion
functions when none are registered, then layers the caller context over
the defaults (`funcmode: 'value'`, `mode: defaultMode`, `path: '$'`),
resets `symbols` to a fresh table of normalized copies of the caller's
descriptors, and merges `assertionFuncs` over the defaults.  Returns the
initialized context split into its immutable part, mode, path and the
fresh symbol table. -/
def initContextDefaults (input : CtxInput) (g : GlobalState) :
    Ctx × Mode × String × Symbols :=
  let g' := if g.funcs.isEmpty then loadDefaultAssertionFuncs g else g
  let c : Ctx :=
    { funcmode := input.funcmode.getD Funcmode.value,
      funcs := input.funcs,
      fail := match input.failF with
        | some f => some f
        | none => (funcsFind "fail" g'.funcs).map JsFunc.callFail,
      equal := match input.equalF with
        | some f => some f
        | none => (funcsFind "equal" g'.funcs).map JsFunc.callEqual }
  let m := input.mode.getD g.defaultMode
  let p := input.path.getD "$"
  let syms : Symbols := input.symbols.map (fun kv => (kv.1, normalizeSymDescr kv.2))
  (c, m, p, syms)

/-- Public `assertRealInclude(actual, expected, ctx)`. -/
def assertRealInclude (actual expected : JVal) (input : CtxInput)
    (g : GlobalState) : Except Err Bool :=
  match initContextDefaults input g with
  | (c, m, p, syms) => (_assertRealInclude actual expected p c m syms).1

/-- Public `assertRealArrayInclude(actual, expected, ctx)`. -/
def assertRealArrayInclude (actual : JVal) (expected : List JVal)
    (input : CtxInput) (g : GlobalState) : Except Err Bool :=
  match initContextDefaults input g with
  | (c, m, p, syms) => (_assertRealArrayInclude actual expected p c m syms).1

/-- A caller context that only sets the operation mode. -/
def modeOnlyCtx (m : Mode) : CtxInput :=
  { emptyCtxInput with mode := some m }

/-- The immutable context part produced by default initialization (fallback
assertion primitives, `funcmode: 'value'`). -/
def baseCtx : Ctx :=
  (initContextDefaults emptyCtxInput initialGlobalState).1

mutual

/-- `deletes e a`: the expected value `e` is obtained from the actual value
`a` by deleting zero or more object entries / array elements, at any
nesting depth, with no renaming (the subset relation of spec section 8). -/
def deletes : JVal → JVal → Bool
  | JVal.obj fs, JVal.obj gs => subFields fs gs
  | JVal.arr es, JVal.arr as => subElems es as
  | e, a => strictEq e a
termination_by _ a => sizeOf a

/-- Order-preserving entry deletion for object field lists. -/
def subFields : List (JKey × JVal) → List (JKey × JVal) → Bool
  | [], _ => true
  | _ :: _, [] => false
  | (k, v) :: fs, (k', v') :: gs =>
      (decide (k = k') && deletes v v' && subFields fs gs)
        || subFields ((k, v) :: fs) gs
termination_by _ gs => sizeOf gs

/-- Order-preserving element deletion for array element lists. -/
def subElems : List JVal → List JVal → Bool
  | [], _ => true
  | _ :: _, [] => false
  | e :: es, a :: as =>
      (deletes e a && subElems es as) || subElems (e :: es) as
termination_by _ as => sizeOf as

end

mutual

/-- Well-formedness of an actual value for the subset-soundness property:
no `null` anywhere, objects carry only non-empty string keys and no
duplicate keys.  (`null` values make even a self-match fail because
`Object.keys(null)` throws; symbol keys fail the ordinary-key property
assertion; an empty-string key is found but falsy at line 157.) -/
def wfActual : JVal → Bool
  | JVal.null => false
  | JVal.obj fs => wfFields fs && decide ((fs.map Prod.fst).Nodup)
  | JVal.arr as => wfElems as
  | _ => true

/-- Well-formedness of an object field list: string keys only, and no
empty-string key (a found `""` key is falsy in the property assertion at
line 157, so even a self-match fails on it). -/
def wfFields : List (JKey × JVal) → Bool
  | [] => true
  | (k, v) :: rest =>
      isStrEntry (k, v) && decide (JKey.render k ≠ "") && wfActual v && wfFields rest

/-- Well-formedness of an array element list. -/
def wfElems : List JVal → Bool
  | [] => true
  | v :: rest => wfActual v && wfElems rest

end

/-- Whether a value is scalar in the sense of the order-independence
property: not composite, not a function, not a symbol. -/
def isScalarValue : JVal → Bool
  | JVal.undef => true
  | JVal.null => true
  | JVal.bool _ => true
  | JVal.num _ => true
  | JVal.str _ => true
  | _ => false

/-- Spec-variant of the public array entry point (refinement comparison
for the claim that internal recursive calls always force `assert`):
following spec section 4.4, every internal call of the matching body runs
in raise-on-failure mode (`assert`), and only the outermost boundary
re-interprets the thrown failure according to the caller's requested
mode. -/
def assertRealArrayIncludeSpecForced (actual : JVal) (expected : List JVal)
    (input : CtxInput) (g : GlobalState) : Except Err Bool :=
  match initContextDefaults input g with
  | (c, m, p, syms) =>
    match (_assertRealArrayInclude actual expected p c Mode.assert syms).1 with
    | .ok b => .ok b
    | .error e => if m = Mode.assert then .error e else .ok false

/-- Concrete input: actual array `[{a: 1}, {b: 2}]`. -/
def pairActual : JVal :=
  JVal.arr [JVal.obj [(JKey.str "a", JVal.num 1)], JVal.obj [(JKey.str "b", JVal.num 2)]]

/-- Concrete input: expected array `[{b: 2}, {a: 1}]`. -/
def pairExpected : List JVal :=
  [JVal.obj [(JKey.str "b", JVal.num 2)], JVal.obj [(JKey.str "a", JVal.num 1)]]

/-- Concrete input: actual array `[{x: 1}, {y: 2}]` (C2 comparison). -/
def pairActual2 : JVal :=
  JVal.arr [JVal.obj [(JKey.str "x", JVal.num 1)], JVal.obj [(JKey.str "y", JVal.num 2)]]

/-- Concrete input: expected array `[{y: 2}, {x: 1}]` (C2 comparison). -/
def pairExpected2 : List JVal :=
  [JVal.obj [(JKey.str "y", JVal.num 2)], JVal.obj [(JKey.str "x", JVal.num 1)]]

/-- Concrete input: actual object `{a: 'x'}` (C4). -/
def symValActual : JVal := JVal.obj [(JKey.str "a", JVal.str "x")]

/-- Concrete input: expected object `{a: S}` with `S` a registered
placeholder symbol (C4). -/
def symValExpected : JVal := JVal.obj [(JKey.str "a", JVal.sym 0)]

/-- Context registering placeholder symbol `S` (id 0) with an empty
descriptor, in the given mode (C4). -/
def symValCtx (m : Mode) : CtxInput :=
  { emptyCtxInput with
      mode := some m,
      symbols := [(0, { matcher := none, value := none })] }

/-- Concrete input: the object `{a: null}` (C5 counterexample). -/
def nullField : JVal := JVal.obj [(JKey.str "a", JVal.null)]

/-- Concrete input: probed actual element `{x: 1}` (C3 counterexample). -/
def probeElem : JVal := JVal.obj [(JKey.str "x", JVal.num 1)]

/-- Concrete input: expected composite `{y: 2}` whose probe fails (C3). -/
def probeExpected : JVal := JVal.obj [(JKey.str "y", JVal.num 2)]

/-- Whether a matcher result is a thrown exception. -/
def isThrown : Except Err Bool → Bool
  | .error _ => true
  | .ok _ => false

/-- First unconsumed index holding a strictly-equal element — what the
greedy scan computes for a scalar expected element (proved below). -/
def scalarFind (e : JVal) : Nat → List JVal → List Nat → Option Nat
  | _, [], _ => none
  | j, x :: rest, skip =>
      if skip.contains j then scalarFind e (j + 1) rest skip
      else if strictEq e x then some j
      else scalarFind e (j + 1) rest skip

/-- C10: the public array-inclusion entry point with an empty expected
array returns `true` and signals no failure, for every actual value, every
caller context and every global state (hence in both modes). -/
theorem empty_expected_array_always_true (actual : JVal) (input : CtxInput)
    (g : GlobalState) :
    assertRealArrayInclude actual [] input g = .ok true := by
  simp [assertRealArrayInclude, _assertRealArrayInclude, arrLoop]

/-- C8: the initialized context defaults the function-interpretation mode
to `value` and the operation mode to the process-wide default, with
caller-supplied values overriding; the process-wide default mode starts as
`check`. -/
theorem context_defaulting (input : CtxInput) (g : GlobalState) :
    (initContextDefaults input g).1.funcmode = input.funcmode.getD Funcmode.value ∧
    (initContextDefaults input g).2.1 = input.mode.getD g.defaultMode ∧
    initialGlobalState.defaultMode = Mode.check := by
  refine ⟨?_, ?_, rfl⟩ <;> simp [initContextDefaults]

/-- The assertion-function installation loop raises exactly when some
entry is not callable. -/
theorem setFuncsLoop_error_iff (entries : List (String × Option JsFunc))
    (g : GlobalState) :
    (∃ err, setDefaultMode.setFuncsLoop entries g = .error err) ↔
      ∃ p ∈ entries, p.2 = (none : Option JsFunc) := by
  induction entries generalizing g with
  | nil => simp [setDefaultMode.setFuncsLoop]
  | cons p rest ih =>
      obtain ⟨k, f⟩ := p
      cases f with
      | some jf => simp [setDefaultMode.setFuncsLoop, ih]
      | none => simp [setDefaultMode.setFuncsLoop]

/-- C7: `setDefaultMode` raises an error if and only if the supplied mode
is neither 'check' nor 'assert' or some supplied assertion-function entry
is not callable; the criterion does not involve the current default mode
(the state `g` is universally quantified and absent from the right-hand
side), and no error is ever converted to a boolean result (the return type
carries no failure boolean). -/
theorem setDefaultMode_raises_iff (mode : String)
    (afs : Option (List (String × Option JsFunc))) (g : GlobalState) :
    (∃ err, setDefaultMode mode afs g = .error err) ↔
      ((mode ≠ "check" ∧ mode ≠ "assert") ∨
        ∃ p ∈ afs.getD [], p.2 = (none : Option JsFunc)) := by
  by_cases h : mode = "check" ∨ mode = "assert"
  · cases afs with
    | none =>
        simp [setDefaultMode, h]
        tauto
    | some entries =>
        simp [setDefaultMode, h, setFuncsLoop_error_iff]
        tauto
  · push_neg at h
    simp [setDefaultMode, h]

/-- C1: mode symmetry fails on the code.  On actual `[{a:1},{b:2}]` and
expected `[{b:2},{a:1}]`, `check` mode returns `false` while `assert` mode
raises nothing and returns `true`: in `check` mode the failed probe of
`{a:1}` against `{b:2}` consumes index 0, which the second expected
element then needs; in `assert` mode the failed probe throws before the
consume, is swallowed, and index 0 stays available. -/
theorem mode_asymmetry_pair_eval :
    assertRealArrayInclude pairActual pairExpected (modeOnlyCtx Mode.check)
      initialGlobalState = .ok false ∧
    assertRealArrayInclude pairActual pairExpected (modeOnlyCtx Mode.assert)
      initialGlobalState = .ok true := by
  constructor <;>
  simp [assertRealArrayInclude, initContextDefaults, loadDefaultAssertionFuncs, funcsFind,
    funcsSet, emptyCtxInput, modeOnlyCtx, normalizeSymDescr, defaultSymMatcher,
    _assertRealArrayInclude, arrLoop, arrScan, _assertRealInclude, inclBody, objKeyLoop,
    resolveKey, assertProperty, assertTrue, callFail, callEqual, fallbackFail, fallbackEqual,
    fallbackFailFunc, fallbackEqualFunc, objEntriesE, objStringKeysE, getPropE, fieldLookup,
    toPropKey, arrayEntries, isStrEntry, forInValues, jTypeOf, strictEq, isArray, arrElems,
    symsFind, symsSetValue, jDisplay, JKey.render, JKey.toVal, JType.name, initialGlobalState,
    pairActual, pairExpected]

/-- C4: the object matcher's symbolic-value branch reads the descriptor at
`ctx.symbols[expectedKey]` instead of `ctx.symbols[expectedVal]`
(line 218), so on `{a: 'x'}` against `{a: S}` with `S` registered and
unresolved — where the claim requires 'x' to be bound to `S` and the match
to succeed — the code dereferences `undefined`, raising a `TypeError`:
`check` mode returns `false`, `assert` mode re-raises the `TypeError`. -/
theorem symbolic_value_bug_eval :
    assertRealInclude symValActual symValExpected (symValCtx Mode.check)
      initialGlobalState = .ok false ∧
    assertRealInclude symValActual symValExpected (symValCtx Mode.assert)
      initialGlobalState =
      .error (.typeError "Cannot read properties of undefined (reading matcher)") := by
  constructor <;>
  simp [assertRealInclude, initContextDefaults, loadDefaultAssertionFuncs, funcsFind,
    funcsSet, emptyCtxInput, symValCtx, normalizeSymDescr, defaultSymMatcher,
    _assertRealArrayInclude, arrLoop, arrScan, _assertRealInclude, inclBody, objKeyLoop,
    resolveKey, assertProperty, assertTrue, callFail, callEqual, fallbackFail, fallbackEqual,
    fallbackFailFunc, fallbackEqualFunc, objEntriesE, objStringKeysE, getPropE, fieldLookup,
    toPropKey, arrayEntries, isStrEntry, forInValues, jTypeOf, strictEq, isArray, arrElems,
    symsFind, symsSetValue, jDisplay, JKey.render, JKey.toVal, JType.name, initialGlobalState,
    symValActual, symValExpected]

/-- C5 counterexample: `{a: null}` is a deletion-subset of itself (zero
deletions, both composite), yet matching it against itself returns
`false` in `check` mode: the forced-assert recursion on the `null` values
evaluates `Object.keys(null)` and throws a `TypeError`. -/
theorem null_self_inclusion_fails :
    deletes nullField nullField = true ∧
    assertRealInclude nullField nullField (modeOnlyCtx Mode.check)
      initialGlobalState = .ok false := by
  constructor
  · simp [nullField, deletes, subFields, strictEq]
  · simp [assertRealInclude, initContextDefaults, loadDefaultAssertionFuncs, funcsFind,
      funcsSet, emptyCtxInput, modeOnlyCtx, normalizeSymDescr, defaultSymMatcher,
      _assertRealArrayInclude, arrLoop, arrScan, _assertRealInclude, inclBody, objKeyLoop,
      resolveKey, assertProperty, assertTrue, callFail, callEqual, fallbackFail, fallbackEqual,
      fallbackFailFunc, fallbackEqualFunc, objEntriesE, objStringKeysE, getPropE, fieldLookup,
      toPropKey, arrayEntries, isStrEntry, forInValues, jTypeOf, strictEq, isArray, arrElems,
      symsFind, symsSetValue, jDisplay, JKey.render, JKey.toVal, JType.name, initialGlobalState,
      nullField]

/-- C3 counterexample: in `assert`(-inherited) mode, a failed composite
probe does not consume the probed index.  Probing `{x:1}` (index 0)
against expected `{y:2}` raises inside the probe, and the scan returns
found `false` with the consumed set still empty — the claim requires
index 0 to be in the consumed set. -/
theorem assert_probe_not_consumed_eval :
    isThrown (_assertRealInclude probeElem probeExpected "$.0" baseCtx Mode.assert []).1 = true ∧
    arrScan probeExpected "$.0" 0 [probeElem] baseCtx Mode.assert [] [] =
      (.ok (false, []), []) := by
  constructor <;>
  simp [isThrown, baseCtx, initContextDefaults, loadDefaultAssertionFuncs, funcsFind,
    funcsSet, emptyCtxInput, normalizeSymDescr, defaultSymMatcher,
    _assertRealArrayInclude, arrLoop, arrScan, _assertRealInclude, inclBody, objKeyLoop,
    resolveKey, assertProperty, assertTrue, callFail, callEqual, fallbackFail, fallbackEqual,
    fallbackFailFunc, fallbackEqualFunc, objEntriesE, objStringKeysE, getPropE, fieldLookup,
    toPropKey, arrayEntries, isStrEntry, forInValues, jTypeOf, strictEq, isArray, arrElems,
    symsFind, symsSetValue, jDisplay, JKey.render, JKey.toVal, JType.name, initialGlobalState,
    probeElem, probeExpected]

/-- C2 counterexample: the code's array matcher does not force `assert` on
its composite probes.  On actual `[{x:1},{y:2}]`, expected
`[{y:2},{x:1}]` in `check` mode, the code returns `false`, while the
forced-assert variant written from the spec sentence returns `true` — so
the composite recursions inside the greedy scan are not run with mode
forced to `assert`. -/
theorem forced_assert_variant_differs_eval :
    assertRealArrayInclude pairActual2 pairExpected2 (modeOnlyCtx Mode.check)
      initialGlobalState = .ok false ∧
    assertRealArrayIncludeSpecForced pairActual2 pairExpected2 (modeOnlyCtx Mode.check)
      initialGlobalState = .ok true := by
  constructor <;>
  simp [assertRealArrayInclude, assertRealArrayIncludeSpecForced, initContextDefaults,
    loadDefaultAssertionFuncs, funcsFind,
    funcsSet, emptyCtxInput, modeOnlyCtx, normalizeSymDescr, defaultSymMatcher,
    _assertRealArrayInclude, arrLoop, arrScan,
    _assertRealInclude, inclBody, objKeyLoop,
    resolveKey, assertProperty, assertTrue, callFail, callEqual, fallbackFail, fallbackEqual,
    fallbackFailFunc, fallbackEqualFunc, objEntriesE, objStringKeysE, getPropE, fieldLookup,
    toPropKey, arrayEntries, isStrEntry, forInValues, jTypeOf, strictEq, isArray, arrElems,
    symsFind, symsSetValue, jDisplay, JKey.render, JKey.toVal, JType.name, initialGlobalState,
    pairActual2, pairExpected2]

/-- An exhaustive rewrap of an `Except` value is the value itself. -/
theorem except_match_id (r : Except Err Bool) :
    (match r with
     | .ok b => (Except.ok b : Except Err Bool)
     | .error e => Except.error e) = r := by
  cases r <;> rfl

/-- C2 amended: the array matcher's internal calls inherit the caller's
mode rather than being forced to `assert`, so the forced-assert reading
of the entry point coincides with the code exactly when the caller
requested `assert` in the first place (and differs in `check` mode, by
the counterexample). -/
theorem spec_forced_agrees_when_assert (actual : JVal) (expected : List JVal)
    (input : CtxInput) (g : GlobalState)
    (hmode : input.mode = some Mode.assert) :
    assertRealArrayIncludeSpecForced actual expected input g =
      assertRealArrayInclude actual expected input g := by
  simp [assertRealArrayIncludeSpecForced, assertRealArrayInclude,
    initContextDefaults, hmode, except_match_id]

/-- Witness for the forced-assert agreement theorem at a concrete input. -/
theorem spec_forced_agrees_when_assert_witness :
    assertRealArrayIncludeSpecForced pairActual pairExpected
        (modeOnlyCtx Mode.assert) initialGlobalState =
      assertRealArrayInclude pairActual pairExpected
        (modeOnlyCtx Mode.assert) initialGlobalState :=
  spec_forced_agrees_when_assert pairActual pairExpected
    (modeOnlyCtx Mode.assert) initialGlobalState rfl

/-- C3 amended: in `check` mode, a composite expected element probed
against a type-matching unconsumed actual entry whose recursive match
returns `false` marks that entry's index consumed before the scan
continues, so every later lookup in this call skips it; (in `assert` mode
the failed probe raises instead and the index is not consumed — see the
counterexample). -/
theorem arrScan_check_consumes_failed_probe
    (e x : JVal) (rest : List JVal) (epath : String) (c : Ctx) (j : Nat)
    (skip : List Nat) (syms s₂ : Symbols)
    (hobj : jTypeOf e = JType.object) (hx : jTypeOf x = jTypeOf e)
    (hskip : j ∉ skip)
    (hprobe : (if isArray e then
          _assertRealArrayInclude x (arrElems e) epath c Mode.check syms
        else _assertRealInclude x e epath c Mode.check syms) = (.ok false, s₂)) :
    arrScan e epath j (x :: rest) c Mode.check skip syms =
      arrScan e epath (j + 1) rest c Mode.check (j :: skip) s₂ := by
  rw [arrScan]
  all_goals first
    | (intro a h; subst h; simp [jTypeOf] at hobj)
    | simp [hskip, hobj, hx, hprobe]

/-- Witness: the consumption step applied to the concrete probe of `{x:1}`
against expected `{y:2}`. -/
theorem arrScan_check_consumes_failed_probe_witness :
    (if isArray probeExpected then
        _assertRealArrayInclude probeElem (arrElems probeExpected) "$.0" baseCtx Mode.check []
      else _assertRealInclude probeElem probeExpected "$.0" baseCtx Mode.check []) =
      (.ok false, []) ∧
    arrScan probeExpected "$.0" 0 [probeElem] baseCtx Mode.check [] [] =
      arrScan probeExpected "$.0" 1 [] baseCtx Mode.check [0] [] := by
  have hp : (if isArray probeExpected then
        _assertRealArrayInclude probeElem (arrElems probeExpected) "$.0" baseCtx Mode.check []
      else _assertRealInclude probeElem probeExpected "$.0" baseCtx Mode.check []) =
      (.ok false, []) := by
    simp [baseCtx, initContextDefaults, loadDefaultAssertionFuncs, funcsFind,
      funcsSet, emptyCtxInput, normalizeSymDescr, defaultSymMatcher,
      _assertRealArrayInclude, arrLoop, arrScan, _assertRealInclude, inclBody, objKeyLoop,
      resolveKey, assertProperty, assertTrue, callFail, callEqual, fallbackFail, fallbackEqual,
      fallbackFailFunc, fallbackEqualFunc, objEntriesE, objStringKeysE, getPropE, fieldLookup,
      toPropKey, arrayEntries, isStrEntry, forInValues, jTypeOf, strictEq, isArray, arrElems,
      symsFind, symsSetValue, jDisplay, JKey.render, JKey.toVal, JType.name, initialGlobalState,
      probeElem, probeExpected]
  exact ⟨hp, arrScan_check_consumes_failed_probe probeExpected probeElem [] "$.0"
    baseCtx 0 [] [] [] rfl rfl (by simp) hp⟩

/-- JS strict equality only accepts identical values in this model. -/
theorem strictEq_imp_eq {a b : JVal} (h : strictEq a b = true) : a = b := by
  cases a <;> cases b <;> simp_all [strictEq]

/-- A found index is at or past the scan start. -/
theorem scalarFind_ge {e : JVal} :
    ∀ {xs : List JVal} {j k : Nat} {skip : List Nat},
    scalarFind e j xs skip = some k → j ≤ k := by
  intro xs
  induction xs with
  | nil => intro j k skip h; simp [scalarFind] at h
  | cons x rest ih =>
      intro j k skip h
      simp only [scalarFind] at h
      split at h
      · exact Nat.le_of_succ_le (ih h)
      · split at h
        · cases h; omega
        · exact Nat.le_of_succ_le (ih h)

/-- The find only consults the consumed set at indices at or past the
scan start. -/
theorem scalarFind_congr {e : JVal} :
    ∀ {xs : List JVal} {j : Nat} {s₁ s₂ : List Nat},
    (∀ i, j ≤ i → (s₁.contains i = s₂.contains i)) →
    scalarFind e j xs s₁ = scalarFind e j xs s₂ := by
  intro xs
  induction xs with
  | nil => intro j s₁ s₂ hs; simp [scalarFind]
  | cons x rest ih =>
      intro j s₁ s₂ hs
      have hs' : ∀ i, j + 1 ≤ i → (s₁.contains i = s₂.contains i) := by
        intro i hi; exact hs i (by omega)
      simp only [scalarFind]
      rw [hs j (Nat.le_refl j)]
      by_cases hskip : s₂.contains j = true
      · simp [hskip, ih hs']
      · simp [hskip, ih hs']

/-- For a scalar (non-composite, non-function, non-symbol, non-null)
expected element, a context in `value` function-interpretation mode and
an empty symbol table, the greedy scan is exactly the first-fit search by
strict equality over unconsumed indices, with no other side effect. -/
theorem arrScan_scalar (e : JVal) (hs : isScalarValue e = true)
    (hnn : e ≠ JVal.null) (c : Ctx) (hc : c.funcmode = Funcmode.value)
    (m : Mode) (epath : String) :
    ∀ (xs : List JVal) (j : Nat) (skip : List Nat),
    arrScan e epath j xs c m skip [] =
      (match scalarFind e j xs skip with
       | some k => (Except.ok (true, k :: skip), ([] : Symbols))
       | none => (Except.ok (false, skip), ([] : Symbols))) := by
  intro xs
  induction xs with
  | nil => intro j skip; simp [arrScan, scalarFind]
  | cons x rest ih =>
      intro j skip
      have hobj : jTypeOf e ≠ JType.object := by
        cases e <;> simp_all [isScalarValue, jTypeOf]
      have hfn : (jTypeOf e == JType.function) = false := by
        cases e <;> simp_all [isScalarValue, jTypeOf]
      have hsy : (jTypeOf e == JType.symbol) = false := by
        cases e <;> simp_all [isScalarValue, jTypeOf]
      rw [arrScan]
      all_goals try (intro a ha; subst ha; simp [isScalarValue] at hs)
      simp only [scalarFind]
      by_cases hskip : j ∈ skip
      · simp [hskip, ih]
      · by_cases hst : strictEq e x = true
        · have hex : e = x := strictEq_imp_eq hst
          have hty : ¬ (jTypeOf x ≠ jTypeOf e) := by rw [← hex]; simp
          simp [hskip, hfn, hsy, hobj, hty, hst]
        · by_cases hty : jTypeOf x = jTypeOf e
          · simp [hskip, hfn, hsy, hobj, hty, hst, ih]
          · simp [hskip, hfn, hsy, hobj, hty, hst, ih]

/-- With a `null` expected value and an object-typed actual, the object
matcher body throws: `Object.keys(null)` raises a `TypeError`. -/
theorem inclBody_null_expected (x : JVal) (hx : jTypeOf x = JType.object)
    (path : String) (c : Ctx) (syms : Symbols) :
    inclBody x JVal.null path c syms =
      (.error (.typeError "Cannot convert undefined or null to object"), syms) := by
  have h2 : jTypeOf JVal.null = JType.object := rfl
  rw [inclBody]
  simp [hx, h2, objEntriesE]

/-- A `null` expected element is never found by the scan: every probe of
an object-typed actual element throws inside and is swallowed (consuming
the index only in `check` mode), and no other branch can accept. -/
theorem arrScan_null (c : Ctx) (m : Mode) (epath : String) :
    ∀ (xs : List JVal) (j : Nat) (skip : List Nat),
    ∃ skip', arrScan JVal.null epath j xs c m skip [] = (.ok (false, skip'), []) := by
  intro xs
  induction xs with
  | nil => intro j skip; exact ⟨skip, by simp [arrScan]⟩
  | cons x rest ih =>
      intro j skip
      have hnt : jTypeOf JVal.null = JType.object := rfl
      have hna : isArray JVal.null = false := rfl
      rw [arrScan]
      all_goals try (intro a ha; cases ha)
      by_cases hskip : j ∈ skip
      · simpa [hskip] using ih (j + 1) skip
      · by_cases hty : jTypeOf x = JType.object
        · have hprobe : _assertRealInclude x JVal.null epath c m [] =
              (if m = Mode.assert then
                (.error (.typeError "Cannot convert undefined or null to object"), ([] : Symbols))
              else (.ok false, ([] : Symbols))) := by
            rw [_assertRealInclude, inclBody_null_expected x hty]
          cases m with
          | check =>
              obtain ⟨skip', hrec⟩ := ih (j + 1) (j :: skip)
              refine ⟨skip', ?_⟩
              simp [hskip, hty, hnt, hna, hprobe, hrec]
          | assert =>
              obtain ⟨skip', hrec⟩ := ih (j + 1) skip
              refine ⟨skip', ?_⟩
              simp [hskip, hty, hnt, hna, hprobe, hrec]
        · have hty2 : ¬ (jTypeOf x = jTypeOf JVal.null) := by rw [hnt]; exact hty
          simpa [hskip, hty2] using ih (j + 1) skip

/-- Initialization of a mode-only caller context yields the default
immutable context, the requested mode, the root path and a fresh empty
symbol table. -/
theorem initContext_modeOnly (m : Mode) :
    initContextDefaults (modeOnlyCtx m) initialGlobalState =
      (baseCtx, m, "$", ([] : Symbols)) := rfl

theorem baseCtx_funcmode : baseCtx.funcmode = Funcmode.value := rfl

theorem baseCtx_fail : baseCtx.fail = some fallbackFail := rfl

/-- Under opposite strict-equality targets, skipping the index found for
one target does not change what the other target finds. -/
theorem scalarFind_skip_disjoint (u v : JVal)
    (hdisj : ∀ z, strictEq u z = true → strictEq v z = true → False) :
    ∀ (xs : List JVal) (j k : Nat), scalarFind u j xs [] = some k →
    scalarFind v j xs [k] = scalarFind v j xs [] := by
  intro xs
  induction xs with
  | nil => intro j k h; simp [scalarFind] at h
  | cons x rest ih =>
      intro j k h
      simp only [scalarFind] at h
      rw [if_neg (by simp)] at h
      by_cases hux : strictEq u x = true
      · rw [if_pos hux] at h
        have hk : k = j := by cases h; rfl
        subst hk
        have hvx : strictEq v x = false := by
          by_contra hb
          exact hdisj x hux (by revert hb; cases strictEq v x <;> simp)
        simp only [scalarFind]
        simp [hvx]
        apply scalarFind_congr
        intro i hi
        have hik : ¬ (i = k) := by omega
        simp [hik]
      · rw [if_neg hux] at h
        have hk : j + 1 ≤ k := scalarFind_ge h
        have hcontains : ([k].contains j) = false := by simp; omega
        simp only [scalarFind, hcontains]
        simp only [Bool.false_eq_true, if_false]
        rw [if_neg (by simp : ¬ (([] : List Nat).contains j = true))]
        by_cases hvx : strictEq v x = true
        · simp only [if_pos hvx]
        · simp only [if_neg hvx]
          exact ih (j + 1) k h

/-- Helper: a failed loop step makes the whole array call fail in both
modes (never `ok true`). -/
theorem pair_null_fails (as : List JVal) (u v : JVal) (m : Mode)
    (hu : isScalarValue u = true)
    (h : u = JVal.null ∨ v = JVal.null) :
    assertRealArrayInclude (JVal.arr as) [u, v] (modeOnlyCtx m) initialGlobalState ≠
      .ok true := by
  have hstep : assertRealArrayInclude (JVal.arr as) [u, v] (modeOnlyCtx m) initialGlobalState =
      (_assertRealArrayInclude (JVal.arr as) [u, v] "$" baseCtx m []).1 := rfl
  rw [hstep]
  by_cases hu0 : u = JVal.null
  · subst hu0
    obtain ⟨skip', hscan⟩ := arrScan_null baseCtx m ("$" ++ "." ++ Nat.repr 0) as 0 []
    rw [_assertRealArrayInclude]
    simp only [arrLoop]
    rw [show forInValues (JVal.arr as) = as from rfl]
    rw [hscan]
    simp [callFail, baseCtx_fail, fallbackFail]
    cases m <;> simp
  · have hv0 : v = JVal.null := by tauto
    subst hv0
    rw [_assertRealArrayInclude]
    simp only [arrLoop]
    rw [show forInValues (JVal.arr as) = as from rfl]
    rw [arrScan_scalar u hu hu0 baseCtx rfl m ("$" ++ "." ++ Nat.repr 0) as 0 []]
    cases hfu : scalarFind u 0 as [] with
    | none =>
        simp [callFail, baseCtx_fail, fallbackFail]
        cases m <;> simp
    | some k =>
        obtain ⟨skip', hscan2⟩ := arrScan_null baseCtx m ("$" ++ "." ++ Nat.repr 1) as 0 [k]
        simp only [hfu]
        rw [hscan2]
        simp [callFail, baseCtx_fail, fallbackFail]
        cases m <;> simp

/-- Helper: for distinct non-null scalars the two-element array match
succeeds exactly when both values are found by the first-fit scan of the
actual array. -/
theorem pair_ok_iff (as : List JVal) (u v : JVal) (m : Mode)
    (hu : isScalarValue u = true) (hv : isScalarValue v = true)
    (hun : u ≠ JVal.null) (hvn : v ≠ JVal.null) (huv : u ≠ v) :
    (assertRealArrayInclude (JVal.arr as) [u, v] (modeOnlyCtx m) initialGlobalState =
        .ok true ↔
      (scalarFind u 0 as []).isSome ∧ (scalarFind v 0 as []).isSome) := by
  have hstep : assertRealArrayInclude (JVal.arr as) [u, v] (modeOnlyCtx m) initialGlobalState =
      (_assertRealArrayInclude (JVal.arr as) [u, v] "$" baseCtx m []).1 := rfl
  rw [hstep, _assertRealArrayInclude]
  simp only [arrLoop]
  rw [show forInValues (JVal.arr as) = as from rfl]
  rw [arrScan_scalar u hu hun baseCtx rfl m ("$" ++ "." ++ Nat.repr 0) as 0 []]
  cases hfu : scalarFind u 0 as [] with
  | none =>
      simp [callFail, baseCtx_fail, fallbackFail]
      cases m <;> simp
  | some k =>
      simp only [hfu]
      rw [arrScan_scalar v hv hvn baseCtx rfl m ("$" ++ "." ++ Nat.repr 1) as 0 [k]]
      have hdisj : ∀ z, strictEq u z = true → strictEq v z = true → False := by
        intro z h1 h2
        exact huv ((strictEq_imp_eq h1).trans (strictEq_imp_eq h2).symm)
      rw [scalarFind_skip_disjoint u v hdisj as 0 k hfu]
      cases hfv : scalarFind v 0 as [] with
      | none =>
          simp [callFail, baseCtx_fail, fallbackFail]
          cases m <;> simp
      | some k2 => simp

/-- C6: order independence for scalar pairs. For every actual array `A` and
scalar (non-composite, non-function, non-symbol) values `x` and `y`, the
array-inclusion match of `A` against `[x, y]` succeeds (returns `.ok true`,
which in assert mode also means no exception) if and only if the match of
`A` against `[y, x]` succeeds, each call starting from a fresh default
context in the same mode. -/
theorem array_pair_order_independent (as : List JVal) (x y : JVal) (m : Mode)
    (hx : isScalarValue x = true) (hy : isScalarValue y = true) :
    (assertRealArrayInclude (JVal.arr as) [x, y] (modeOnlyCtx m) initialGlobalState =
        .ok true ↔
     assertRealArrayInclude (JVal.arr as) [y, x] (modeOnlyCtx m) initialGlobalState =
        .ok true) := by
  by_cases hxy : x = y
  · subst hxy; exact Iff.rfl
  · by_cases hxn : x = JVal.null
    · subst hxn
      exact iff_of_false (pair_null_fails as JVal.null y m rfl (Or.inl rfl))
        (pair_null_fails as y JVal.null m hy (Or.inr rfl))
    · by_cases hyn : y = JVal.null
      · subst hyn
        exact iff_of_false (pair_null_fails as x JVal.null m hx (Or.inr rfl))
          (pair_null_fails as JVal.null x m rfl (Or.inl rfl))
      · rw [pair_ok_iff as x y m hx hy hxn hyn hxy,
            pair_ok_iff as y x m hy hx hyn hxn (Ne.symm hxy)]
        exact and_comm

/-- Witness for C6 at a concrete input: actual `[1, "a"]`, pair `1` and
`"a"`, check mode. -/
theorem array_pair_order_independent_witness :
    isScalarValue (JVal.num 1) = true ∧ isScalarValue (JVal.str "a") = true ∧
    (assertRealArrayInclude (JVal.arr [JVal.num 1, JVal.str "a"])
        [JVal.num 1, JVal.str "a"] (modeOnlyCtx Mode.check) initialGlobalState =
        .ok true ↔
     assertRealArrayInclude (JVal.arr [JVal.num 1, JVal.str "a"])
        [JVal.str "a", JVal.num 1] (modeOnlyCtx Mode.check) initialGlobalState =
        .ok true) :=
  ⟨rfl, rfl, array_pair_order_independent [JVal.num 1, JVal.str "a"]
    (JVal.num 1) (JVal.str "a") Mode.check rfl rfl⟩

/-- Strict equality is reflexive on non-composite values. -/
theorem strictEq_self_not_object (a : JVal) (h : jTypeOf a ≠ JType.object) :
    strictEq a a = true := by
  cases a <;> simp_all [jTypeOf, strictEq]

/-- A deletion image has the same `typeof` as its source. -/
theorem jTypeOf_eq_of_deletes {e a : JVal} (h : deletes e a = true) :
    jTypeOf e = jTypeOf a := by
  cases e <;> cases a <;> first | rfl | (exfalso; simp [deletes, strictEq] at h)

/-- Size bound: the value projection of an entry list is no larger. -/
theorem sizeOf_map_snd_le (l : List (JKey × JVal)) :
    sizeOf (l.map Prod.snd) ≤ sizeOf l := by
  induction l with
  | nil => simp
  | cons p rest ih =>
      cases p with
      | mk k v =>
          simp only [List.map_cons, List.cons.sizeOf_spec, Prod.mk.sizeOf_spec]
          omega

/-- Size bound: a member entry's value is smaller than the entry list. -/
theorem sizeOf_snd_lt_of_mem {q : JKey × JVal} {l : List (JKey × JVal)}
    (h : q ∈ l) : sizeOf q.2 < sizeOf l := by
  have h1 : sizeOf q < sizeOf l := List.sizeOf_lt_of_mem h
  cases q with
  | mk k v => simp only [Prod.mk.sizeOf_spec] at h1 ⊢; omega

/-- The value projection of the array entry list is the element list. -/
theorem arrayEntries_map_snd : ∀ (i : Nat) (l : List JVal),
    (arrayEntries i l).map Prod.snd = l := by
  intro i l
  induction l generalizing i with
  | nil => rfl
  | cons v rest ih => simp [arrayEntries, ih]

/-- The entry list the object matcher iterates is smaller than the
expected value it came from. -/
theorem objEntriesE_sizeOf_lt {e : JVal} {ents : List (JKey × JVal)}
    (ht : jTypeOf e = JType.object) (h : objEntriesE e = .ok ents) :
    sizeOf (ents.map Prod.snd) < sizeOf e := by
  cases e with
  | null => simp [objEntriesE] at h
  | obj fs =>
      have hents : ents = fs.filter isStrEntry ++ fs.filter (fun p => ! isStrEntry p) := by
        simpa [objEntriesE] using h.symm
      have hperm : (fs.filter isStrEntry ++ fs.filter (fun p => ! isStrEntry p)).Perm fs :=
        List.filter_append_perm isStrEntry fs
      have h1 : sizeOf (ents.map Prod.snd) ≤ sizeOf ents := sizeOf_map_snd_le ents
      have h2 : sizeOf ents = sizeOf fs := by rw [hents]; exact hperm.sizeOf_eq_sizeOf
      have h3 : sizeOf (JVal.obj fs) = 1 + sizeOf fs := by simp
      omega
  | arr as =>
      have hents : ents = arrayEntries 0 as := by simpa [objEntriesE] using h.symm
      have h1 : ents.map Prod.snd = as := by rw [hents]; exact arrayEntries_map_snd 0 as
      have h3 : sizeOf (JVal.arr as) = 1 + sizeOf as := by simp
      rw [h1]; omega
  | undef => simp [jTypeOf] at ht
  | bool b => simp [jTypeOf] at ht
  | num nn => simp [jTypeOf] at ht
  | str s => simp [jTypeOf] at ht
  | sym sid => simp [jTypeOf] at ht
  | func fid => simp [jTypeOf] at ht

/-- Size bound: an array's element list is smaller than the array value. -/
theorem arrElems_sizeOf_lt {e : JVal} (h : isArray e = true) :
    sizeOf (arrElems e) < sizeOf e := by
  cases e <;> simp [isArray] at h <;> simp [arrElems]

/-- Key resolution leaves an empty symbol table empty. -/
theorem resolveKey_syms_nil (a : JVal) (ek : JKey) (pp : String) (c : Ctx)
    (matched : List JVal) : (resolveKey a ek pp c matched []).2 = [] := by
  cases ek with
  | sym sid =>
      simp only [resolveKey, symsFind]
      cases assertProperty a (JKey.toVal (JKey.sym sid)) ("Expected property " ++ pp) c <;> rfl
  | str s =>
      simp only [resolveKey]
      cases assertProperty a (JKey.toVal (JKey.str s)) ("Expected property " ++ pp) c <;> rfl

/-- With duplicate-free keys, field lookup answers the member value. -/
theorem fieldLookup_of_mem_nodup {k : JKey} {v : JVal} {gs : List (JKey × JVal)}
    (hmem : (k, v) ∈ gs) (hnd : (gs.map Prod.fst).Nodup) :
    fieldLookup k gs = some v := by
  induction gs with
  | nil => cases hmem
  | cons p rest ih =>
      cases p with
      | mk k' v' =>
          simp only [List.map_cons, List.nodup_cons] at hnd
          rcases List.mem_cons.mp hmem with heq | htail
          · cases heq
            simp [fieldLookup]
          · have hk : k' ≠ k := by
              intro hkk
              subst hkk
              exact hnd.1 (List.mem_map.mpr ⟨(k', v), htail, rfl⟩)
            simp only [fieldLookup, if_neg hk]
            exact ih htail hnd.2

/-- Members of a well-formed field list are keyed by non-empty strings
and hold well-formed values. -/
theorem wfFields_mem {gs : List (JKey × JVal)} (h : wfFields gs = true) :
    ∀ q ∈ gs, isStrEntry q = true ∧ JKey.render q.1 ≠ "" ∧ wfActual q.2 = true := by
  induction gs with
  | nil => intro q hq; cases hq
  | cons p rest ih =>
      intro q hq
      cases p with
      | mk k v =>
          rw [wfFields] at h
          simp only [Bool.and_eq_true, decide_eq_true_eq] at h
          rcases List.mem_cons.mp hq with heq | htail
          · subst heq
            exact ⟨h.1.1.1, h.1.1.2, h.1.2⟩
          · exact ih h.2 q htail

/-- Members of a well-formed element list are well-formed. -/
theorem wfElems_mem {as : List JVal} (h : wfElems as = true) :
    ∀ a ∈ as, wfActual a = true := by
  induction as with
  | nil => intro a ha; cases ha
  | cons x rest ih =>
      intro a ha
      rw [wfElems] at h
      simp only [Bool.and_eq_true] at h
      rcases List.mem_cons.mp ha with heq | htail
      · subst heq; exact h.1
      · exact ih h.2 a htail

/-- Every entry of a field-deletion image appears in the source with the
same key and a deletion-image value. -/
theorem subFields_mem : ∀ {fs gs : List (JKey × JVal)},
    subFields fs gs = true →
    ∀ q ∈ fs, ∃ v2, (q.1, v2) ∈ gs ∧ deletes q.2 v2 = true := by
  intro fs gs
  induction gs generalizing fs with
  | nil =>
      intro h q hq
      cases fs with
      | nil => cases hq
      | cons p rest => rw [subFields] at h; cases h
  | cons g grest ih =>
      intro h q hq
      cases fs with
      | nil => cases hq
      | cons p frest =>
          cases p with
          | mk k v =>
            cases g with
            | mk k2 v2 =>
              rw [subFields] at h
              simp only [Bool.or_eq_true, Bool.and_eq_true, decide_eq_true_eq] at h
              rcases h with ⟨⟨hk, hdel⟩, hrest⟩ | hskip
              · subst hk
                rcases List.mem_cons.mp hq with heq | htail
                · subst heq
                  exact ⟨v2, List.mem_cons_self _ _, hdel⟩
                · obtain ⟨w, hw, hdw⟩ := ih hrest q htail
                  exact ⟨w, List.mem_cons_of_mem _ hw, hdw⟩
              · obtain ⟨w, hw, hdw⟩ := ih hskip q hq
                exact ⟨w, List.mem_cons_of_mem _ hw, hdw⟩

/-- Deleting elements stays a deletion image after prepending a source
element. -/
theorem subElems_cons_of {es as : List JVal} (h : subElems es as = true)
    (x : JVal) : subElems es (x :: as) = true := by
  cases es with
  | nil => rw [subElems]
  | cons e rest =>
      rw [subElems]
      simp only [Bool.or_eq_true]
      exact Or.inr h

/-- Deletion images of a suffix are deletion images of the whole list. -/
theorem subElems_of_drop {es : List JVal} : ∀ {as : List JVal} {B : Nat},
    subElems es (as.drop B) = true → subElems es as = true := by
  intro as
  induction as with
  | nil => intro B h; simpa using h
  | cons x rest ih =>
      intro B h
      cases B with
      | zero => simpa using h
      | succ B0 =>
          rw [List.drop_succ_cons] at h
          exact subElems_cons_of (ih h) x

/-- Monotone in the drop bound. -/
theorem subElems_drop_mono {es as : List JVal} {B B2 : Nat} (hle : B2 ≤ B)
    (h : subElems es (as.drop B) = true) : subElems es (as.drop B2) = true := by
  have : as.drop B = (as.drop B2).drop (B - B2) := by
    rw [List.drop_drop]
    congr 1
    omega
  rw [this] at h
  exact subElems_of_drop h

/-- Decompose a deletion image: the head matches some source position and
the tail deletes from the remainder after it. -/
theorem subElems_head_split {e : JVal} {es : List JVal} : ∀ {as : List JVal},
    subElems (e :: es) as = true →
    ∃ p, ∃ hp : p < as.length,
      deletes e (as.get ⟨p, hp⟩) = true ∧ subElems es (as.drop (p + 1)) = true := by
  intro as
  induction as with
  | nil => intro h; rw [subElems] at h; cases h
  | cons x rest ih =>
      intro h
      rw [subElems] at h
      simp only [Bool.or_eq_true, Bool.and_eq_true] at h
      rcases h with ⟨hdel, htail⟩ | hskip
      · exact ⟨0, by simp, by simpa using hdel, by simpa using htail⟩
      · obtain ⟨p, hp, hdel, htail⟩ := ih hskip
        exact ⟨p + 1, by simpa using Nat.succ_lt_succ hp, by simpa using hdel,
          by simpa using htail⟩

/-- The entry list of an all-string-keyed expected object is its field
list. -/
theorem objEntriesE_of_str {fs : List (JKey × JVal)}
    (h : ∀ q ∈ fs, isStrEntry q = true) :
    objEntriesE (JVal.obj fs) = .ok fs := by
  have h1 : fs.filter isStrEntry = fs := List.filter_eq_self.mpr h
  have h2 : fs.filter (fun p => ! isStrEntry p) = [] := by
    rw [List.filter_eq_nil]
    intro p hp
    simp [h p hp]
  simp [objEntriesE, h1, h2]

/-- A present NON-EMPTY string key passes the property assertion (the
found key is truthy). -/
theorem assertProperty_found {gs : List (JKey × JVal)} {s : String} {v : JVal}
    (hmem : (JKey.str s, v) ∈ gs) (hs : s ≠ "") (msg : String) (c : Ctx) :
    assertProperty (JVal.obj gs) (JVal.str s) msg c = .ok Unit.unit := by
  have hks : s ∈ (gs.filterMap (fun p => match p.1 with
      | JKey.str t => some t
      | JKey.sym _ => none)) := by
    exact List.mem_filterMap.mpr ⟨(JKey.str s, v), hmem, rfl⟩
  have hty : jTypeOf (JVal.obj gs) = JType.object := rfl
  cases hf : ((gs.filterMap (fun p => match p.1 with
      | JKey.str t => some t
      | JKey.sym _ => none)).find?
        (fun n => strictEq (JVal.str n) (JVal.str s))) with
  | none =>
      exfalso
      have hsome : ((gs.filterMap (fun p => match p.1 with
          | JKey.str t => some t
          | JKey.sym _ => none)).find?
            (fun n => strictEq (JVal.str n) (JVal.str s))).isSome := by
        rw [List.find?_isSome]
        exact ⟨s, hks, by simp [strictEq]⟩
      rw [hf] at hsome
      simp at hsome
  | some nfound =>
      have hpn := List.find?_some hf
      have hn : nfound = s := by simpa [strictEq] using hpn
      have hne : ¬ (nfound = "") := by rw [hn]; exact hs
      simp only [assertProperty, hty, ne_eq, not_true_eq_false, if_false,
        objStringKeysE, hf, hne, ite_false]

/-- Key resolution for a present non-empty string key. -/
theorem resolveKey_str_found {gs : List (JKey × JVal)} {s : String} {v : JVal}
    (hmem : (JKey.str s, v) ∈ gs) (hs : s ≠ "") (pp : String) (c : Ctx)
    (matched : List JVal) :
    resolveKey (JVal.obj gs) (JKey.str s) pp c matched [] =
      (.ok (JVal.str s), []) := by
  simp only [resolveKey, assertProperty_found hmem hs _ c, JKey.toVal]

/-- Property read of a looked-up field. -/
theorem getPropE_obj {gs : List (JKey × JVal)} {s : String} {v : JVal}
    (h : fieldLookup (JKey.str s) gs = some v) :
    getPropE (JVal.obj gs) (JVal.str s) = .ok v := by
  simp [getPropE, toPropKey, h]

/-- `baseCtx` installs the fallback `equal`. -/
theorem baseCtx_equal : baseCtx.equal = some fallbackEqual := rfl

/-- The fallback `equal` accepts a non-composite value against itself. -/
theorem callEqual_self {a : JVal} (h : jTypeOf a ≠ JType.object) (msg : String) :
    callEqual baseCtx a a msg = .ok Unit.unit := by
  simp [callEqual, baseCtx_equal, fallbackEqual, strictEq_self_not_object a h]

/-- The array-scan symbol guard can never hold over an empty table. -/
theorem symGuardProp_nil (ev : JVal) :
    ¬ (jTypeOf ev = JType.symbol ∧ (match ev with
        | JVal.sym sid => (symsFind sid ([] : Symbols)).isSome
        | _ => false) = true) := by
  rintro ⟨h1, h2⟩
  cases ev <;> simp [symsFind, jTypeOf] at h1 h2

/-- Boolean form of the empty-table symbol guard. -/
theorem symGuardBool_nil (ev : JVal) :
    (jTypeOf ev == JType.symbol && (match ev with
        | JVal.sym sid => (symsFind sid ([] : Symbols)).isSome
        | _ => false)) = false := by
  cases ev <;> simp [symsFind, jTypeOf]

/-- `baseCtx` runs in value funcmode, so the matcher-function guard is
always false. -/
theorem funcGuardBool_base (ev x : JVal) :
    (jTypeOf ev == JType.function && baseCtx.funcmode == Funcmode.matcher
      && (match ev with
        | JVal.func fid => baseCtx.funcs fid x
        | _ => false)) = false := by
  have hb : (baseCtx.funcmode == Funcmode.matcher) = false := by
    rw [baseCtx_funcmode]; rfl
  simp [hb]

/-- With an empty symbol table no symbol branch can fire, so every matcher
component returns the table unchanged (empty).  Proved for all components
simultaneously by strong induction on the size of the expected side. -/
theorem syms_nil_all : ∀ n : Nat,
    (∀ ents : List (JKey × JVal), sizeOf (ents.map Prod.snd) ≤ n →
        ∀ a path matched, (objKeyLoop a ents path baseCtx matched []).2 = []) ∧
    (∀ e : JVal, sizeOf e ≤ n →
        ∀ a path, (inclBody a e path baseCtx []).2 = []) ∧
    (∀ e : JVal, sizeOf e ≤ n →
        ∀ a path m, (_assertRealInclude a e path baseCtx m []).2 = []) ∧
    (∀ e : JVal, sizeOf e ≤ n →
        ∀ epath xs j m skip, (arrScan e epath j xs baseCtx m skip []).2 = []) ∧
    (∀ es : List JVal, sizeOf es ≤ n →
        ∀ a path m i skip, (arrLoop a i es path baseCtx m skip []).2 = []) ∧
    (∀ es : List JVal, sizeOf es ≤ n →
        ∀ a path m, (_assertRealArrayInclude a es path baseCtx m []).2 = []) := by
  intro n
  induction n using Nat.strong_induction_on with
  | _ n IH =>
  have hObj : ∀ ents : List (JKey × JVal), sizeOf (ents.map Prod.snd) ≤ n →
      ∀ a path matched, (objKeyLoop a ents path baseCtx matched []).2 = [] := by
    intro ents
    induction ents with
    | nil => intro hsz a path matched; rw [objKeyLoop]
    | cons p rest ihE =>
        rcases p with ⟨ek, ev⟩
        intro hsz a path matched
        have hszrest : sizeOf (rest.map Prod.snd) ≤ n := by
          simp only [List.map_cons, List.cons.sizeOf_spec] at hsz ⊢
          omega
        have hszev : sizeOf ev < n := by
          simp only [List.map_cons, List.cons.sizeOf_spec] at hsz
          have hpos : 0 < sizeOf (rest.map Prod.snd) := by
            cases rest <;> simp
          omega
        simp only [objKeyLoop]
        cases hrk : resolveKey a ek (path ++ "." ++ JKey.render ek) baseCtx matched [] with
        | mk r s1 =>
          have hs1 : s1 = [] := by
            have hh := resolveKey_syms_nil a ek (path ++ "." ++ JKey.render ek) baseCtx matched
            rw [hrk] at hh
            exact hh
          subst hs1
          cases r with
          | error err => simp [hrk]
          | ok actualKey =>
            by_cases hev : jTypeOf ev = JType.object
            · cases hgp : getPropE a actualKey with
              | error err => simp [hrk, hev, hgp]
              | ok av =>
                by_cases hia : isArray ev = true
                · cases hpr : _assertRealArrayInclude av (arrElems ev)
                      (path ++ "." ++ JKey.render ek) baseCtx Mode.assert [] with
                  | mk r2 s2 =>
                    have hs2 : s2 = [] := by
                      have hlt : sizeOf (arrElems ev) < n :=
                        lt_trans (arrElems_sizeOf_lt hia) hszev
                      obtain ⟨-, -, -, -, -, hAW⟩ := IH (sizeOf (arrElems ev)) hlt
                      have hh := hAW (arrElems ev) (le_refl _) av
                        (path ++ "." ++ JKey.render ek) Mode.assert
                      rw [hpr] at hh
                      exact hh
                    subst hs2
                    cases r2 with
                    | ok b => simp [hrk, hev, hgp, hia, hpr, ihE hszrest]
                    | error err => simp [hrk, hev, hgp, hia, hpr]
                · cases hpr : _assertRealInclude av ev
                      (path ++ "." ++ JKey.render ek) baseCtx Mode.assert [] with
                  | mk r2 s2 =>
                    have hs2 : s2 = [] := by
                      obtain ⟨-, -, hIW, -, -, -⟩ := IH (sizeOf ev) hszev
                      have hh := hIW ev (le_refl _) av
                        (path ++ "." ++ JKey.render ek) Mode.assert
                      rw [hpr] at hh
                      exact hh
                    subst hs2
                    cases r2 with
                    | ok b => simp [hrk, hev, hgp, hia, hpr, ihE hszrest]
                    | error err => simp [hrk, hev, hgp, hia, hpr]
            · have hb : (baseCtx.funcmode == Funcmode.matcher) = false := by
                rw [baseCtx_funcmode]; rfl
              cases hgp : getPropE a actualKey with
              | error err =>
                  simp [hrk, hev, hb, symGuardBool_nil ev, symGuardProp_nil ev, hgp]
              | ok av =>
                cases hce : callEqual baseCtx av ev ("Property does not match expected value: "
                    ++ (path ++ "." ++ JKey.render ek)) with
                | error err =>
                    simp [hrk, hev, hb, symGuardBool_nil ev, symGuardProp_nil ev, hgp, hce]
                | ok u =>
                    simp [hrk, hev, hb, symGuardBool_nil ev, symGuardProp_nil ev, hgp, hce,
                      ihE hszrest]
  have hIncl : ∀ e : JVal, sizeOf e ≤ n →
      ∀ a path, (inclBody a e path baseCtx []).2 = [] := by
    intro e hsz a path
    rw [inclBody]
    by_cases hA : jTypeOf a ≠ JType.object
    · simp [hA]
    · by_cases hE : jTypeOf e ≠ JType.object
      · simp [hA, hE]
      · cases hoe : objEntriesE e with
        | error err => simp [hA, hE, hoe]
        | ok ents =>
            have hszents : sizeOf (ents.map Prod.snd) ≤ n :=
              le_of_lt (lt_of_lt_of_le (objEntriesE_sizeOf_lt (not_not.mp hE) hoe) hsz)
            simp only [hA, hE, hoe, if_false, ite_false, not_false_eq_true, not_true_eq_false]
            exact hObj ents hszents a path []
  have hInclW : ∀ e : JVal, sizeOf e ≤ n →
      ∀ a path m, (_assertRealInclude a e path baseCtx m []).2 = [] := by
    intro e hsz a path m
    rw [_assertRealInclude]
    cases hib : inclBody a e path baseCtx [] with
    | mk r s1 =>
      have hs1 : s1 = [] := by
        have hh := hIncl e hsz a path
        rw [hib] at hh
        exact hh
      subst hs1
      cases r with
      | ok u => simp
      | error err => cases m <;> simp
  have hScan : ∀ e : JVal, sizeOf e ≤ n →
      ∀ epath xs j m skip, (arrScan e epath j xs baseCtx m skip []).2 = [] := by
    intro e hsz epath xs
    induction xs with
    | nil => intro j m skip; simp [arrScan]
    | cons x rest ihx =>
        intro j m skip
        rw [arrScan.eq_def]
        by_cases hskip : skip.contains j = true
        · simp only [hskip, if_true]
          exact ihx (j + 1) m skip
        · have hmem : j ∉ skip := by simpa using hskip
          by_cases hty : jTypeOf x ≠ jTypeOf e
          · simp [hskip, hmem, funcGuardBool_base e x, symGuardBool_nil e, symGuardProp_nil e,
              hty, ihx]
          · have htyx : jTypeOf x = jTypeOf e := not_not.mp hty
            by_cases hobj : jTypeOf e = JType.object
            · by_cases hia : isArray e = true
              · cases hpr : _assertRealArrayInclude x (arrElems e) epath baseCtx m [] with
                | mk r s2 =>
                  have hs2 : s2 = [] := by
                    have hlt : sizeOf (arrElems e) < n :=
                      lt_of_lt_of_le (arrElems_sizeOf_lt hia) hsz
                    obtain ⟨-, -, -, -, -, hAW⟩ := IH (sizeOf (arrElems e)) hlt
                    have hh := hAW (arrElems e) (le_refl _) x epath m
                    rw [hpr] at hh
                    exact hh
                  subst hs2
                  cases r with
                  | ok found =>
                      by_cases hf : found = true
                      · simp [hskip, hmem, htyx, funcGuardBool_base e x, symGuardBool_nil e,
                          symGuardProp_nil e, hty, hobj, hia, hpr, hf]
                      · simp [hskip, hmem, htyx, funcGuardBool_base e x, symGuardBool_nil e,
                          symGuardProp_nil e, hty, hobj, hia, hpr, hf, ihx]
                  | error err =>
                      simp [hskip, hmem, htyx, funcGuardBool_base e x, symGuardBool_nil e,
                        symGuardProp_nil e, hty, hobj, hia, hpr, ihx]
              · cases hpr : _assertRealInclude x e epath baseCtx m [] with
                | mk r s2 =>
                  have hs2 : s2 = [] := by
                    have hh := hInclW e hsz x epath m
                    rw [hpr] at hh
                    exact hh
                  subst hs2
                  cases r with
                  | ok found =>
                      by_cases hf : found = true
                      · simp [hskip, hmem, htyx, funcGuardBool_base e x, symGuardBool_nil e,
                          symGuardProp_nil e, hty, hobj, hia, hpr, hf]
                      · simp [hskip, hmem, htyx, funcGuardBool_base e x, symGuardBool_nil e,
                          symGuardProp_nil e, hty, hobj, hia, hpr, hf, ihx]
                  | error err =>
                      simp [hskip, hmem, htyx, funcGuardBool_base e x, symGuardBool_nil e,
                        symGuardProp_nil e, hty, hobj, hia, hpr, ihx]
            · by_cases hst : strictEq e x = true
              · simp [hskip, hmem, htyx, funcGuardBool_base e x, symGuardBool_nil e, symGuardProp_nil e,
                  hty, hobj, hst]
              · simp [hskip, hmem, htyx, funcGuardBool_base e x, symGuardBool_nil e, symGuardProp_nil e,
                  hty, hobj, hst, ihx]
  have hLoop : ∀ es : List JVal, sizeOf es ≤ n →
      ∀ a path m i skip, (arrLoop a i es path baseCtx m skip []).2 = [] := by
    intro es
    induction es with
    | nil => intro hsz a path m i skip; rw [arrLoop]
    | cons e rest ihe =>
        intro hsz a path m i skip
        have hsze : sizeOf e ≤ n := by
          simp only [List.cons.sizeOf_spec] at hsz
          omega
        have hszr : sizeOf rest ≤ n := by
          simp only [List.cons.sizeOf_spec] at hsz
          omega
        rw [arrLoop]
        cases hsc : arrScan e (path ++ "." ++ Nat.repr i) 0 (forInValues a) baseCtx m skip [] with
        | mk r s1 =>
          have hs1 : s1 = [] := by
            have hh := hScan e hsze (path ++ "." ++ Nat.repr i) (forInValues a) 0 m skip
            rw [hsc] at hh
            exact hh
          subst hs1
          cases r with
          | error err => simp [hsc]
          | ok pr =>
              rcases pr with ⟨found, skip2⟩
              by_cases hf : found = true
              · simp [hsc, hf, ihe hszr]
              · have hcf : callFail baseCtx ("Could not find array member value at path: "
                    ++ (path ++ "." ++ Nat.repr i)) =
                      .error (.jsError ("Assertion Failed: "
                        ++ ("Could not find array member value at path: "
                          ++ (path ++ "." ++ Nat.repr i)))) := by
                  simp [callFail, baseCtx_fail, fallbackFail]
                simp [hsc, hf, hcf]
  have hArrW : ∀ es : List JVal, sizeOf es ≤ n →
      ∀ a path m, (_assertRealArrayInclude a es path baseCtx m []).2 = [] := by
    intro es hsz a path m
    rw [_assertRealArrayInclude]
    cases hal : arrLoop a 0 es path baseCtx m [] [] with
    | mk r s1 =>
      have hs1 : s1 = [] := by
        have hh := hLoop es hsz a path m 0 []
        rw [hal] at hh
        exact hh
      subst hs1
      cases r with
      | ok u => simp
      | error err => cases m <;> simp
  exact ⟨hObj, hIncl, hInclW, hScan, hLoop, hArrW⟩

/-- A probe of any expected value against any actual leaves the empty
symbol table empty (object-matcher wrapper). -/
theorem inclW_syms_nil (a e : JVal) (path : String) (m : Mode) :
    (_assertRealInclude a e path baseCtx m []).2 = [] :=
  (syms_nil_all (sizeOf e)).2.2.1 e (le_refl _) a path m

/-- A probe of any expected element list against any actual leaves the
empty symbol table empty (array-matcher wrapper). -/
theorem arrW_syms_nil (a : JVal) (es : List JVal) (path : String) (m : Mode) :
    (_assertRealArrayInclude a es path baseCtx m []).2 = [] :=
  (syms_nil_all (sizeOf es)).2.2.2.2.2 es (le_refl _) a path m

/-- Outside the two composite pairings, `deletes` is strict equality. -/
theorem deletes_catchall {e a : JVal}
    (h : jTypeOf e ≠ JType.object ∨ jTypeOf a ≠ JType.object) :
    deletes e a = strictEq e a := by
  cases e <;> cases a <;>
    first
      | (exfalso; rcases h with h | h <;> exact h rfl)
      | simp [deletes]

/-- A deletion image of an object is an object with deleted fields. -/
theorem deletes_to_obj {e : JVal} {gs : List (JKey × JVal)}
    (h : deletes e (JVal.obj gs) = true) :
    ∃ fs, e = JVal.obj fs ∧ subFields fs gs = true := by
  cases e <;>
    first
      | (exact ⟨_, rfl, by simpa [deletes] using h⟩)
      | (exfalso; simp [deletes, strictEq] at h)

/-- A deletion image of an array is an array with deleted elements. -/
theorem deletes_to_arr {e : JVal} {as : List JVal}
    (h : deletes e (JVal.arr as) = true) :
    ∃ es, e = JVal.arr es ∧ subElems es as = true := by
  cases e <;>
    first
      | (exact ⟨_, rfl, by simpa [deletes] using h⟩)
      | (exfalso; simp [deletes, strictEq] at h)

/-- The actual behind an array-shaped expected value is an array. -/
theorem deletes_arr_actual {es : List JVal} {x : JVal}
    (h : deletes (JVal.arr es) x = true) :
    ∃ as, x = JVal.arr as ∧ subElems es as = true := by
  cases x <;>
    first
      | (exact ⟨_, rfl, by simpa [deletes] using h⟩)
      | (exfalso; simp [deletes, strictEq] at h)

/-- Well-formedness components of an object value. -/
theorem wfActual_obj {gs : List (JKey × JVal)}
    (h : wfActual (JVal.obj gs) = true) :
    wfFields gs = true ∧ (gs.map Prod.fst).Nodup := by
  rw [wfActual] at h
  simpa using h

/-- Well-formedness component of an array value. -/
theorem wfActual_arr {as : List JVal} (h : wfActual (JVal.arr as) = true) :
    wfElems as = true := by
  rw [wfActual] at h
  exact h

/-- Field deletion is preserved by dropping the head entry. -/
theorem subFields_cons_of {fs gs : List (JKey × JVal)}
    (h : subFields fs gs = true) (g : JKey × JVal) :
    subFields fs (g :: gs) = true := by
  cases fs with
  | nil => rw [subFields]
  | cons p rest =>
      cases g with
      | mk k2 v2 =>
        cases p with
        | mk k v =>
          rw [subFields]
          simp only [Bool.or_eq_true]
          exact Or.inr h

/-- The tail of a field-deletion image is a field-deletion image. -/
theorem subFields_tail {p : JKey × JVal} {fs gs : List (JKey × JVal)} :
    subFields (p :: fs) gs = true → subFields fs gs = true := by
  induction gs with
  | nil => intro h; rcases p with ⟨k, v⟩; rw [subFields] at h; cases h
  | cons g grest ih =>
      intro h
      rcases p with ⟨k, v⟩
      rcases g with ⟨k2, v2⟩
      rw [subFields] at h
      simp only [Bool.or_eq_true, Bool.and_eq_true, decide_eq_true_eq] at h
      rcases h with ⟨⟨hk, hdel⟩, hrest⟩ | hskip
      · exact subFields_cons_of hrest (k2, v2)
      · exact subFields_cons_of (ih hskip) (k2, v2)


/-- Decompose a deletion image of a dropped suffix: the head matches a
source position at or past the drop bound, and the tail deletes from the
remainder after that position. -/
theorem subElems_head_split_drop {e : JVal} {es : List JVal} :
    ∀ {as : List JVal} {B : Nat}, subElems (e :: es) (as.drop B) = true →
    ∃ p, ∃ hp : p < as.length, B ≤ p ∧ deletes e (as.get ⟨p, hp⟩) = true ∧
      subElems es (as.drop (p + 1)) = true := by
  intro as
  induction as with
  | nil =>
      intro B h
      rw [List.drop_nil] at h
      rw [subElems] at h
      cases h
  | cons a arest ih =>
      intro B h
      cases B with
      | zero =>
          rw [List.drop_zero] at h
          obtain ⟨p, hp, hdel, htail⟩ := subElems_head_split h
          exact ⟨p, hp, Nat.zero_le p, hdel, htail⟩
      | succ B0 =>
          rw [List.drop_succ_cons] at h
          obtain ⟨p, hp, hBp, hdel, htail⟩ := ih h
          refine ⟨p + 1, by simpa using Nat.succ_lt_succ hp, by omega, ?_, ?_⟩
          · exact hdel
          · exact htail

/-- Subset soundness core: if the expected side is a deletion image of a
well-formed actual side, every matcher component succeeds (in both modes,
with the default context and an empty symbol table).  All components are
proved simultaneously by strong induction on the size of the expected
side; the array loop carries the greedy-scan invariant that every consumed
index lies strictly below the remaining order-preserving assignment. -/
theorem subset_core : ∀ n : Nat,
    (∀ fs : List (JKey × JVal), sizeOf (fs.map Prod.snd) ≤ n →
        ∀ gs matched path, subFields fs gs = true → wfFields gs = true →
        (gs.map Prod.fst).Nodup →
        objKeyLoop (JVal.obj gs) fs path baseCtx matched [] = (.ok Unit.unit, [])) ∧
    (∀ e : JVal, sizeOf e ≤ n → ∀ a, deletes e a = true → wfActual a = true →
        isArray e = false → ∀ path,
        inclBody a e path baseCtx [] = (.ok Unit.unit, [])) ∧
    (∀ e : JVal, sizeOf e ≤ n → ∀ a, deletes e a = true → wfActual a = true →
        isArray e = false → ∀ path m,
        _assertRealInclude a e path baseCtx m [] = (.ok true, [])) ∧
    (∀ e : JVal, sizeOf e ≤ n → ∀ epath m,
        ∀ xs j skip p, ∀ hp : p < xs.length,
        deletes e (xs.get ⟨p, hp⟩) = true → wfElems xs = true →
        ¬ ((j + p) ∈ skip) →
        ∃ g skip2, j ≤ g ∧ g ≤ j + p ∧
          arrScan e epath j xs baseCtx m skip [] = (.ok (true, skip2), []) ∧
          (∀ q ∈ skip2, q ∈ skip ∨ q ≤ g)) ∧
    (∀ es : List JVal, sizeOf es ≤ n → ∀ as skip B i m path,
        (∀ q ∈ skip, q < B) → subElems es (as.drop B) = true →
        wfElems as = true →
        arrLoop (JVal.arr as) i es path baseCtx m skip [] = (.ok Unit.unit, [])) ∧
    (∀ es : List JVal, sizeOf es ≤ n → ∀ as path m,
        subElems es as = true → wfElems as = true →
        _assertRealArrayInclude (JVal.arr as) es path baseCtx m [] = (.ok true, [])) := by
  intro n
  induction n using Nat.strong_induction_on with
  | _ n IH =>
  have hSUobj : ∀ fs : List (JKey × JVal), sizeOf (fs.map Prod.snd) ≤ n →
      ∀ gs matched path, subFields fs gs = true → wfFields gs = true →
      (gs.map Prod.fst).Nodup →
      objKeyLoop (JVal.obj gs) fs path baseCtx matched [] = (.ok Unit.unit, []) := by
    intro fs
    induction fs with
    | nil => intro hsz gs matched path hsub hwf hnd; rw [objKeyLoop]
    | cons p rest ihF =>
        rcases p with ⟨ek, ev⟩
        intro hsz gs matched path hsub hwf hnd
        have hszrest : sizeOf (rest.map Prod.snd) ≤ n := by
          simp only [List.map_cons, List.cons.sizeOf_spec] at hsz ⊢
          omega
        have hszev : sizeOf ev < n := by
          simp only [List.map_cons, List.cons.sizeOf_spec] at hsz
          have hpos : 0 < sizeOf (rest.map Prod.snd) := by
            cases rest <;> simp
          omega
        obtain ⟨v2, hv2mem, hdel⟩ := subFields_mem hsub (ek, ev) (List.mem_cons_self _ _)
        obtain ⟨hstr, hneK, hwfv2⟩ := wfFields_mem hwf (ek, v2) hv2mem
        have hsubrest : subFields rest gs = true := subFields_tail hsub
        cases ek with
        | sym sid => simp [isStrEntry] at hstr
        | str s =>
          have hneS : s ≠ "" := hneK
          have hflk : fieldLookup (JKey.str s) gs = some v2 :=
            fieldLookup_of_mem_nodup hv2mem hnd
          have hgp : getPropE (JVal.obj gs) (JVal.str s) = .ok v2 := getPropE_obj hflk
          simp only [objKeyLoop]
          rw [resolveKey_str_found hv2mem hneS (path ++ "." ++ JKey.render (JKey.str s))
            baseCtx matched]
          by_cases hev : jTypeOf ev = JType.object
          · by_cases hia : isArray ev = true
            · obtain ⟨ees, rfl⟩ : ∃ ees, ev = JVal.arr ees := by
                cases ev <;> simp [isArray] at hia ⊢
              obtain ⟨as2, rfl, hsub2⟩ := deletes_arr_actual hdel
              have hwfas2 : wfElems as2 = true := wfActual_arr hwfv2
              have hlt : sizeOf ees < n := by
                have hh : sizeOf (JVal.arr ees) = 1 + sizeOf ees := by simp
                omega
              obtain ⟨-, -, -, -, -, hAW⟩ := IH (sizeOf ees) hlt
              have hprobe := hAW ees (le_refl _) as2
                (path ++ "." ++ JKey.render (JKey.str s)) Mode.assert hsub2 hwfas2
              simp [hev, hia, hgp, arrElems, hprobe,
                ihF hszrest gs (matched ++ [JVal.str s]) path hsubrest hwf hnd]
            · obtain ⟨-, -, hIW, -, -, -⟩ := IH (sizeOf ev) hszev
              have hprobe := hIW ev (le_refl _) v2 hdel hwfv2
                (by simpa using hia) (path ++ "." ++ JKey.render (JKey.str s)) Mode.assert
              simp [hev, hia, hgp, hprobe,
                ihF hszrest gs (matched ++ [JVal.str s]) path hsubrest hwf hnd]
          · have hd2 : deletes ev v2 = strictEq ev v2 := deletes_catchall (Or.inl hev)
            have heq2 : ev = v2 := strictEq_imp_eq (hd2 ▸ hdel)
            subst heq2
            have hb : (baseCtx.funcmode == Funcmode.matcher) = false := by
              rw [baseCtx_funcmode]; rfl
            simp [hev, hb, symGuardBool_nil ev, symGuardProp_nil ev, hgp,
              callEqual_self hev,
              ihF hszrest gs (matched ++ [JVal.str s]) path hsubrest hwf hnd]
  have hSUincl : ∀ e : JVal, sizeOf e ≤ n → ∀ a, deletes e a = true →
      wfActual a = true → isArray e = false → ∀ path,
      inclBody a e path baseCtx [] = (.ok Unit.unit, []) := by
    intro e hsz a hdel hwf hnarr path
    rw [inclBody]
    by_cases hA : jTypeOf a ≠ JType.object
    · have hd2 : deletes e a = strictEq e a := deletes_catchall (Or.inr hA)
      have hea : e = a := strictEq_imp_eq (hd2 ▸ hdel)
      subst hea
      simp [hA, callEqual_self hA]
    · have hA2 : jTypeOf a = JType.object := not_not.mp hA
      cases a with
      | null => simp [wfActual] at hwf
      | obj gs =>
          obtain ⟨fs, rfl, hsub⟩ := deletes_to_obj hdel
          obtain ⟨hwfF, hnd⟩ := wfActual_obj hwf
          have hstr : ∀ q ∈ fs, isStrEntry q = true := by
            intro q hq
            obtain ⟨v2, hv2, -⟩ := subFields_mem hsub q hq
            have h1 := (wfFields_mem hwfF (q.1, v2) hv2).1
            simpa [isStrEntry] using h1
          have hoe : objEntriesE (JVal.obj fs) = .ok fs := objEntriesE_of_str hstr
          have hszf : sizeOf (fs.map Prod.snd) ≤ n :=
            le_of_lt (lt_of_lt_of_le (objEntriesE_sizeOf_lt (show jTypeOf (JVal.obj fs) = JType.object from rfl) hoe) hsz)
          have hE : ¬ (jTypeOf (JVal.obj fs) ≠ JType.object) := by
            simp [jTypeOf]
          simp only [hA, hE, if_false, ite_false, not_false_eq_true,
            not_true_eq_false]
          split
          · rename_i err heq
            rw [hoe] at heq
            cases heq
          · rename_i ents heq
            rw [hoe] at heq
            injection heq with heq2
            subst heq2
            exact hSUobj fs hszf gs [] path hsub hwfF hnd
      | arr as =>
          obtain ⟨es, rfl, -⟩ := deletes_to_arr hdel
          simp [isArray] at hnarr
      | undef => simp [jTypeOf] at hA2
      | bool b => simp [jTypeOf] at hA2
      | num nn => simp [jTypeOf] at hA2
      | str s2 => simp [jTypeOf] at hA2
      | sym sid => simp [jTypeOf] at hA2
      | func fid => simp [jTypeOf] at hA2
  have hSUinclW : ∀ e : JVal, sizeOf e ≤ n → ∀ a, deletes e a = true →
      wfActual a = true → isArray e = false → ∀ path m,
      _assertRealInclude a e path baseCtx m [] = (.ok true, []) := by
    intro e hsz a hdel hwf hnarr path m
    rw [_assertRealInclude, hSUincl e hsz a hdel hwf hnarr path]
  have hSUscan : ∀ e : JVal, sizeOf e ≤ n → ∀ epath m,
      ∀ xs j skip p, ∀ hp : p < xs.length,
      deletes e (xs.get ⟨p, hp⟩) = true → wfElems xs = true →
      ¬ ((j + p) ∈ skip) →
      ∃ g skip2, j ≤ g ∧ g ≤ j + p ∧
        arrScan e epath j xs baseCtx m skip [] = (.ok (true, skip2), []) ∧
        (∀ q ∈ skip2, q ∈ skip ∨ q ≤ g) := by
    intro e hsz epath m xs
    induction xs with
    | nil => intro j skip p hp; exact absurd hp (by simp)
    | cons x rest ihx =>
        intro j skip p hp hdel hwf hnotin
        have hwfx : wfActual x = true := by
          rw [wfElems] at hwf
          simp only [Bool.and_eq_true] at hwf
          exact hwf.1
        have hwfrest : wfElems rest = true := by
          rw [wfElems] at hwf
          simp only [Bool.and_eq_true] at hwf
          exact hwf.2
        rw [arrScan.eq_def]
        by_cases hskipj : skip.contains j = true
        · have hjmem : j ∈ skip := by simpa using hskipj
          cases p with
          | zero => exact absurd (by simpa using hjmem) hnotin
          | succ p0 =>
              have hp0 : p0 < rest.length := by
                simpa [Nat.succ_lt_succ_iff] using hp
              have hget : (x :: rest).get ⟨p0 + 1, hp⟩ = rest.get ⟨p0, hp0⟩ := rfl
              have hnotin1 : ¬ ((j + 1) + p0 ∈ skip) := by
                have he2 : (j + 1) + p0 = j + (p0 + 1) := by omega
                rw [he2]; exact hnotin
              obtain ⟨g, skip2, hg1, hg2, hres, hsk⟩ :=
                ihx (j + 1) skip p0 hp0 (hget ▸ hdel) hwfrest hnotin1
              refine ⟨g, skip2, by omega, by omega, ?_, hsk⟩
              simp only [hskipj, if_true]
              exact hres
        · have hmemj : j ∉ skip := by simpa using hskipj
          cases p with
          | zero =>
              have hdx : deletes e x = true := hdel
              have htyeq : jTypeOf x = jTypeOf e := (jTypeOf_eq_of_deletes hdx).symm
              by_cases hobj : jTypeOf e = JType.object
              · by_cases hia : isArray e = true
                · obtain ⟨ees, rfl⟩ : ∃ ees, e = JVal.arr ees := by
                    cases e <;> simp [isArray] at hia ⊢
                  obtain ⟨as2, rfl, hsub2⟩ := deletes_arr_actual hdx
                  have hwfas2 : wfElems as2 = true := wfActual_arr hwfx
                  have hlt : sizeOf ees < n := by
                    have hh : sizeOf (JVal.arr ees) = 1 + sizeOf ees := by simp
                    omega
                  obtain ⟨-, -, -, -, -, hAW⟩ := IH (sizeOf ees) hlt
                  have hprobe := hAW ees (le_refl _) as2 epath m hsub2 hwfas2
                  refine ⟨j, j :: skip, le_refl j, by omega, ?_, ?_⟩
                  · simp [hskipj, hmemj, funcGuardBool_base, symGuardBool_nil, symGuardProp_nil,
                      jTypeOf, isArray, arrElems, hprobe]
                  · intro q hq
                    rcases List.mem_cons.mp hq with h | h
                    · right; omega
                    · left; exact h
                · have hprobe := hSUinclW e hsz x hdx hwfx (by simpa using hia) epath m
                  refine ⟨j, j :: skip, le_refl j, by omega, ?_, ?_⟩
                  · simp [hskipj, hmemj, funcGuardBool_base, symGuardBool_nil, symGuardProp_nil,
                      htyeq, hobj, hia, hprobe]
                  · intro q hq
                    rcases List.mem_cons.mp hq with h | h
                    · right; omega
                    · left; exact h
              · have hd2 : deletes e x = strictEq e x := deletes_catchall (Or.inl hobj)
                have hst : strictEq e x = true := hd2 ▸ hdx
                refine ⟨j, j :: skip, le_refl j, by omega, ?_, ?_⟩
                · simp [hskipj, hmemj, funcGuardBool_base, symGuardBool_nil, symGuardProp_nil,
                    htyeq, hobj, hst]
                · intro q hq
                  rcases List.mem_cons.mp hq with h | h
                  · right; omega
                  · left; exact h
          | succ p0 =>
              have hp0 : p0 < rest.length := by
                simpa [Nat.succ_lt_succ_iff] using hp
              have hget : (x :: rest).get ⟨p0 + 1, hp⟩ = rest.get ⟨p0, hp0⟩ := rfl
              have hdrest : deletes e (rest.get ⟨p0, hp0⟩) = true := hget ▸ hdel
              have hnotin1 : ¬ ((j + 1) + p0 ∈ skip) := by
                have he2 : (j + 1) + p0 = j + (p0 + 1) := by omega
                rw [he2]; exact hnotin
              by_cases htyx : jTypeOf x ≠ jTypeOf e
              · obtain ⟨g, skip2, hg1, hg2, hres, hsk⟩ :=
                  ihx (j + 1) skip p0 hp0 hdrest hwfrest hnotin1
                refine ⟨g, skip2, by omega, by omega, ?_, hsk⟩
                simp [hskipj, hmemj, funcGuardBool_base, symGuardBool_nil, symGuardProp_nil,
                  htyx, hres]
              · have htyx2 : jTypeOf x = jTypeOf e := not_not.mp htyx
                by_cases hobj : jTypeOf e = JType.object
                · by_cases hia : isArray e = true
                  · cases hpr : _assertRealArrayInclude x (arrElems e) epath baseCtx m [] with
                    | mk r s2 =>
                      have hs2 : s2 = [] := by
                        have hh := arrW_syms_nil x (arrElems e) epath m
                        rw [hpr] at hh
                        exact hh
                      subst hs2
                      cases r with
                      | ok found =>
                          by_cases hf : found = true
                          · refine ⟨j, j :: skip, le_refl j, by omega, ?_, ?_⟩
                            · simp [hskipj, hmemj, funcGuardBool_base, symGuardBool_nil,
                                symGuardProp_nil, htyx2, hobj, hia, hpr, hf]
                            · intro q hq
                              rcases List.mem_cons.mp hq with h | h
                              · right; omega
                              · left; exact h
                          · have hnotin2 : ¬ ((j + 1) + p0 ∈ (j :: skip)) := by
                              intro hc
                              rcases List.mem_cons.mp hc with h | h
                              · omega
                              · exact hnotin1 h
                            obtain ⟨g, skip2, hg1, hg2, hres, hsk⟩ :=
                              ihx (j + 1) (j :: skip) p0 hp0 hdrest hwfrest hnotin2
                            refine ⟨g, skip2, by omega, by omega, ?_, ?_⟩
                            · simp [hskipj, hmemj, funcGuardBool_base, symGuardBool_nil,
                                symGuardProp_nil, htyx2, hobj, hia, hpr, hf, hres]
                            · intro q hq
                              rcases hsk q hq with hin | hle
                              · rcases List.mem_cons.mp hin with h | h
                                · right; omega
                                · left; exact h
                              · right; exact hle
                      | error err =>
                          obtain ⟨g, skip2, hg1, hg2, hres, hsk⟩ :=
                            ihx (j + 1) skip p0 hp0 hdrest hwfrest hnotin1
                          refine ⟨g, skip2, by omega, by omega, ?_, hsk⟩
                          simp [hskipj, hmemj, funcGuardBool_base, symGuardBool_nil,
                            symGuardProp_nil, htyx2, hobj, hia, hpr, hres]
                  · cases hpr : _assertRealInclude x e epath baseCtx m [] with
                    | mk r s2 =>
                      have hs2 : s2 = [] := by
                        have hh := inclW_syms_nil x e epath m
                        rw [hpr] at hh
                        exact hh
                      subst hs2
                      cases r with
                      | ok found =>
                          by_cases hf : found = true
                          · refine ⟨j, j :: skip, le_refl j, by omega, ?_, ?_⟩
                            · simp [hskipj, hmemj, funcGuardBool_base, symGuardBool_nil,
                                symGuardProp_nil, htyx2, hobj, hia, hpr, hf]
                            · intro q hq
                              rcases List.mem_cons.mp hq with h | h
                              · right; omega
                              · left; exact h
                          · have hnotin2 : ¬ ((j + 1) + p0 ∈ (j :: skip)) := by
                              intro hc
                              rcases List.mem_cons.mp hc with h | h
                              · omega
                              · exact hnotin1 h
                            obtain ⟨g, skip2, hg1, hg2, hres, hsk⟩ :=
                              ihx (j + 1) (j :: skip) p0 hp0 hdrest hwfrest hnotin2
                            refine ⟨g, skip2, by omega, by omega, ?_, ?_⟩
                            · simp [hskipj, hmemj, funcGuardBool_base, symGuardBool_nil,
                                symGuardProp_nil, htyx2, hobj, hia, hpr, hf, hres]
                            · intro q hq
                              rcases hsk q hq with hin | hle
                              · rcases List.mem_cons.mp hin with h | h
                                · right; omega
                                · left; exact h
                              · right; exact hle
                      | error err =>
                          obtain ⟨g, skip2, hg1, hg2, hres, hsk⟩ :=
                            ihx (j + 1) skip p0 hp0 hdrest hwfrest hnotin1
                          refine ⟨g, skip2, by omega, by omega, ?_, hsk⟩
                          simp [hskipj, hmemj, funcGuardBool_base, symGuardBool_nil,
                            symGuardProp_nil, htyx2, hobj, hia, hpr, hres]
                · by_cases hst : strictEq e x = true
                  · refine ⟨j, j :: skip, le_refl j, by omega, ?_, ?_⟩
                    · simp [hskipj, hmemj, funcGuardBool_base, symGuardBool_nil, symGuardProp_nil,
                        htyx2, hobj, hst]
                    · intro q hq
                      rcases List.mem_cons.mp hq with h | h
                      · right; omega
                      · left; exact h
                  · obtain ⟨g, skip2, hg1, hg2, hres, hsk⟩ :=
                      ihx (j + 1) skip p0 hp0 hdrest hwfrest hnotin1
                    refine ⟨g, skip2, by omega, by omega, ?_, hsk⟩
                    simp [hskipj, hmemj, funcGuardBool_base, symGuardBool_nil, symGuardProp_nil,
                      htyx2, hobj, hst, hres]
  have hSUloop : ∀ es : List JVal, sizeOf es ≤ n → ∀ as skip B i m path,
      (∀ q ∈ skip, q < B) → subElems es (as.drop B) = true →
      wfElems as = true →
      arrLoop (JVal.arr as) i es path baseCtx m skip [] = (.ok Unit.unit, []) := by
    intro es
    induction es with
    | nil => intro hsz as skip B i m path hinv hsub hwf; rw [arrLoop]
    | cons e rest ihE =>
        intro hsz as skip B i m path hinv hsub hwf
        have hsze : sizeOf e ≤ n := by
          simp only [List.cons.sizeOf_spec] at hsz
          omega
        have hszr : sizeOf rest ≤ n := by
          simp only [List.cons.sizeOf_spec] at hsz
          omega
        obtain ⟨p, hp, hBp, hdel, htail⟩ := subElems_head_split_drop hsub
        have hpnot : ¬ ((0 + p) ∈ skip) := by
          intro hc
          have h2 := hinv _ hc
          omega
        obtain ⟨g, skip2, hg0, hgle, hres, hsk⟩ :=
          hSUscan e hsze (path ++ "." ++ Nat.repr i) m as 0 skip p hp hdel hwf hpnot
        have hinv2 : ∀ q ∈ skip2, q < max B (g + 1) := by
          intro q hq
          rcases hsk q hq with hin | hle
          · exact lt_of_lt_of_le (hinv q hin) (le_max_left _ _)
          · exact lt_of_lt_of_le (by omega) (le_max_right _ _)
        have hBle : max B (g + 1) ≤ p + 1 :=
          max_le (by omega) (by omega)
        have hsub2 : subElems rest (as.drop (max B (g + 1))) = true :=
          subElems_drop_mono hBle htail
        simp only [arrLoop]
        rw [show forInValues (JVal.arr as) = as from rfl, hres]
        simp [ihE hszr as skip2 (max B (g + 1)) (i + 1) m path hinv2 hsub2 hwf]
  have hSUarrW : ∀ es : List JVal, sizeOf es ≤ n → ∀ as path m,
      subElems es as = true → wfElems as = true →
      _assertRealArrayInclude (JVal.arr as) es path baseCtx m [] = (.ok true, []) := by
    intro es hsz as path m hsub hwf
    rw [_assertRealArrayInclude]
    have hsub0 : subElems es (as.drop 0) = true := by
      rw [List.drop_zero]; exact hsub
    have hloop := hSUloop es hsz as [] 0 0 m path (by intro q hq; cases hq) hsub0 hwf
    rw [hloop]
  exact ⟨hSUobj, hSUincl, hSUinclW, hSUscan, hSUloop, hSUarrW⟩

/-- C5 (amended): subset soundness holds for well-formed actuals.  If the
actual value contains no `null`, its objects carry only string keys with
no duplicates, and the expected value is obtained from it by deleting
zero or more keys/elements at any depth with no renaming, then the
matching entry point for the actual's shape (`assertRealInclude` for
non-arrays, `assertRealArrayInclude` for arrays) succeeds with the default
leaf primitives: it returns true, and in assert mode raises nothing.
(Unrestricted subset soundness is false: see the `{a: null}` self-match
counterexample, where `Object.keys(null)` throws.) -/
theorem real_subset_soundness (a e : JVal) (m : Mode)
    (hd : deletes e a = true) (hw : wfActual a = true) :
    (isArray a = false →
      assertRealInclude a e (modeOnlyCtx m) initialGlobalState = .ok true) ∧
    (isArray a = true →
      assertRealArrayInclude a (arrElems e) (modeOnlyCtx m) initialGlobalState = .ok true) := by
  constructor
  · intro hna
    have hstep : assertRealInclude a e (modeOnlyCtx m) initialGlobalState =
        (_assertRealInclude a e "$" baseCtx m []).1 := rfl
    rw [hstep]
    have hne : isArray e = false := by
      cases e <;>
        first
          | rfl
          | (obtain ⟨as, rfl, -⟩ := deletes_arr_actual hd
             simp [isArray] at hna)
    obtain ⟨-, -, hIW, -, -, -⟩ := subset_core (sizeOf e)
    rw [hIW e (le_refl _) a hd hw hne "$" m]
  · intro hya
    obtain ⟨as, rfl⟩ : ∃ as, a = JVal.arr as := by
      cases a <;> simp [isArray] at hya ⊢
    obtain ⟨es, rfl, hsub⟩ := deletes_to_arr hd
    have hwe : wfElems as = true := wfActual_arr hw
    have hstep : assertRealArrayInclude (JVal.arr as) (arrElems (JVal.arr es))
        (modeOnlyCtx m) initialGlobalState =
        (_assertRealArrayInclude (JVal.arr as) es "$" baseCtx m []).1 := rfl
    rw [hstep]
    obtain ⟨-, -, -, -, -, hAW⟩ := subset_core (sizeOf es)
    rw [hAW es (le_refl _) as "$" m hsub hwe]

/-- Witness for the amended C5 at a concrete input: actual
`{a: 1, b: [2, {c: 3}]}` and expected `{b: [{c: 3}]}` (one key and one
array element deleted, at different depths), check mode. -/
theorem real_subset_soundness_witness :
    deletes (JVal.obj [(JKey.str "b", JVal.arr [JVal.obj [(JKey.str "c", JVal.num 3)]])])
      (JVal.obj [(JKey.str "a", JVal.num 1),
        (JKey.str "b", JVal.arr [JVal.num 2, JVal.obj [(JKey.str "c", JVal.num 3)]])]) = true ∧
    wfActual (JVal.obj [(JKey.str "a", JVal.num 1),
        (JKey.str "b", JVal.arr [JVal.num 2, JVal.obj [(JKey.str "c", JVal.num 3)]])]) = true ∧
    ((isArray (JVal.obj [(JKey.str "a", JVal.num 1),
        (JKey.str "b", JVal.arr [JVal.num 2, JVal.obj [(JKey.str "c", JVal.num 3)]])]) = false →
      assertRealInclude
        (JVal.obj [(JKey.str "a", JVal.num 1),
          (JKey.str "b", JVal.arr [JVal.num 2, JVal.obj [(JKey.str "c", JVal.num 3)]])])
        (JVal.obj [(JKey.str "b", JVal.arr [JVal.obj [(JKey.str "c", JVal.num 3)]])])
        (modeOnlyCtx Mode.check) initialGlobalState = .ok true) ∧
     (isArray (JVal.obj [(JKey.str "a", JVal.num 1),
        (JKey.str "b", JVal.arr [JVal.num 2, JVal.obj [(JKey.str "c", JVal.num 3)]])]) = true →
      assertRealArrayInclude
        (JVal.obj [(JKey.str "a", JVal.num 1),
          (JKey.str "b", JVal.arr [JVal.num 2, JVal.obj [(JKey.str "c", JVal.num 3)]])])
        (arrElems (JVal.obj [(JKey.str "b", JVal.arr [JVal.obj [(JKey.str "c", JVal.num 3)]])]))
        (modeOnlyCtx Mode.check) initialGlobalState = .ok true)) := by
  have hd : deletes (JVal.obj [(JKey.str "b", JVal.arr [JVal.obj [(JKey.str "c", JVal.num 3)]])])
      (JVal.obj [(JKey.str "a", JVal.num 1),
        (JKey.str "b", JVal.arr [JVal.num 2, JVal.obj [(JKey.str "c", JVal.num 3)]])]) = true := by
    simp [deletes, subFields, subElems, strictEq]
  have hw : wfActual (JVal.obj [(JKey.str "a", JVal.num 1),
      (JKey.str "b", JVal.arr [JVal.num 2, JVal.obj [(JKey.str "c", JVal.num 3)]])]) = true := by
    simp [wfActual, wfFields, wfElems, isStrEntry]
    decide
  exact ⟨hd, hw, real_subset_soundness _ _ Mode.check hd hw⟩
